import Mathlib

/-!
Verification of the crawl-to-chunk ingestion pipeline of `webchat_api_v2`.

The Python sources embedded here are `app/utils/common.py` (fetcher, HTML
cleaner, frontier crawler, text chunker) and `app/api/routes.py` (task
orchestrator and progress store).  Pure Python functions become Lean
functions on `String`/`List`; Python `datetime` values become `Nat`
timestamps (seconds); Python dicts become association lists or functions;
`None`-able string fields become `String` with `""` for `None` (Python
truthiness of `None` and `""` coincide); third-party collaborators
(aiohttp, BeautifulSoup link extraction, urllib's netloc) are abstracted
as explicit function parameters or small data types at their call
interface.
-/

namespace WebchatApi

/-! ## Python string primitives

ASCII models of `str.strip`, `str.join`, and the regex `\s` class used by
`re.split` in `create_chunks`. -/

/-- ASCII whitespace as matched by Python's `\s` and stripped by `str.strip`. -/
def isPySpace (c : Char) : Bool :=
  c = ' ' || c = '\t' || c = '\n' || c = '\r' || c = '\x0b' || c = '\x0c'

/-- Sentence-ending punctuation of the lookbehind in `re.split(r'(?<=[.!?])\s+', text)`. -/
def isSentEnd (c : Char) : Bool :=
  c = '.' || c = '!' || c = '?'

/-- Python `str.strip()`: remove leading and trailing whitespace. -/
def pyStrip (s : String) : String :=
  ⟨((s.data.dropWhile isPySpace).reverse.dropWhile isPySpace).reverse⟩

/-- Python `sep.join(parts)`. -/
def pyJoin (sep : String) : List String → String
  | [] => ""
  | [s] => s
  | s :: rest => s ++ sep ++ pyJoin sep rest

/-- Total length of a list of sentences, not counting any joining separators. -/
def sumLens (l : List String) : Nat := (l.map String.length).sum

/-! ## Text Chunker (`create_chunks` in `app/utils/common.py`) -/

/-- Model of `re.split(r'(?<=[.!?])\s+', text)` on the character list: a
separator is a maximal whitespace run whose first character is preceded by
`.`, `!` or `?`.  `acc` is the current piece reversed; `skipping` is true
while consuming the whitespace of a separator (so that a separator at the
end of the input yields a trailing empty piece, as `re.split` does). -/
def splitSentAux : List Char → List Char → Bool → List (List Char)
  | [], acc, _ => [acc.reverse]
  | c :: rest, acc, skipping =>
    if skipping then
      if isPySpace c then splitSentAux rest acc true
      else splitSentAux rest [c] false
    else if isPySpace c && (match acc with | p :: _ => isSentEnd p | [] => false) then
      acc.reverse :: splitSentAux rest [] true
    else splitSentAux rest (c :: acc) false

/-- `sentences = re.split(r'(?<=[.!?])\s+', text)` from `create_chunks`. -/
def splitSentences (text : String) : List String :=
  (splitSentAux text.data [] false).map fun l => ⟨l⟩

/-- The overlap-seeding loop of `create_chunks`: iterate
`reversed(current_chunk)`, and while `overlap_size + len(s) <= overlap`
insert `s` at the front of `overlap_sentences` and add its length to
`overlap_size`; stop at the first sentence that does not fit.  Returns
`(overlap_sentences, overlap_size)`. -/
def seedGo (overlap : Nat) : List String → Nat → List String → List String × Nat
  | [], size, acc => (acc, size)
  | s :: rest, size, acc =>
    if size + s.length ≤ overlap then seedGo overlap rest (size + s.length) (s :: acc)
    else (acc, size)

/-- `overlap_sentences` and `overlap_size` computed from a just-closed chunk. -/
def overlapSeed (chunk : List String) (overlap : Nat) : List String × Nat :=
  seedGo overlap chunk.reverse 0 []

/-- The sentence-accumulation loop of `create_chunks`, tracked at the level
of sentence lists: each emitted chunk is the list of sentences that the code
joins with single spaces.  `current_chunk` and `current_size` are the loop
variables of the source; a chunk is emitted when adding the next stripped
sentence would push `current_size` over `chunk_size` (and at the end), the
emission being guarded by the code's `if chunk_text.strip():` check. -/
def chunksGo (chunk_size overlap : Nat) :
    List String → List String → Nat → List (List String)
  | [], current_chunk, _ =>
    if current_chunk.isEmpty then []
    else if pyStrip (pyJoin " " current_chunk) == "" then []
    else [current_chunk]
  | sentence :: rest, current_chunk, current_size =>
    let s := pyStrip sentence
    if s == "" then chunksGo chunk_size overlap rest current_chunk current_size
    else if current_size + s.length > chunk_size && !current_chunk.isEmpty then
      let seeded := overlapSeed current_chunk overlap
      let emitted :=
        if pyStrip (pyJoin " " current_chunk) == "" then [] else [current_chunk]
      emitted ++ chunksGo chunk_size overlap rest (seeded.1 ++ [s]) (seeded.2 + s.length)
    else chunksGo chunk_size overlap rest (current_chunk ++ [s]) (current_size + s.length)

/-- The chunks of `create_chunks`, as lists of sentences (before joining). -/
def create_chunks_sentences (text : String) (chunk_size overlap : Nat) :
    List (List String) :=
  if text == "" then []
  else chunksGo chunk_size overlap (splitSentences text) [] 0

/-- `create_chunks(text, chunk_size=1000, overlap=200)` from
`app/utils/common.py`: split into sentences, accumulate them into chunks of
at most `chunk_size` summed sentence length, seeding each new chunk with a
length-bounded suffix of the previous one, and join each chunk's sentences
with single spaces. -/
def create_chunks (text : String) (chunk_size : Nat := 1000) (overlap : Nat := 200) :
    List String :=
  (create_chunks_sentences text chunk_size overlap).map (pyJoin " ")

/-! ## HTML Cleaner (`clean_text` in `app/utils/common.py`)

BeautifulSoup is a third-party collaborator: its parsed document is embedded
as a tree of element and text nodes, and the operations `clean_text` uses
(`decompose()` of script/style elements, `find_all` over a tag allow-list in
document order, `get_text(strip=True)`) are modelled on that tree. -/

mutual
/-- A parsed HTML node: a text node or an element with a tag and children. -/
inductive HtmlNode where
  | text : String → HtmlNode
  | elem : String → NodeList → HtmlNode

/-- A list of sibling HTML nodes. -/
inductive NodeList where
  | nil : NodeList
  | cons : HtmlNode → NodeList → NodeList
end

/-- The tag allow-list of `soup.find_all([...])` in `clean_text`. -/
def meaningfulTags : List String :=
  ["p", "h1", "h2", "h3", "h4", "h5", "h6", "li", "div", "span"]

/-- The `for script in soup(["script", "style"]): script.decompose()` pass:
remove every script/style subtree from the document. -/
def decomposeList (l : NodeList) : NodeList :=
  match l with
  | .nil => .nil
  | .cons n rest =>
    match n with
    | .text s => .cons (.text s) (decomposeList rest)
    | .elem t cs =>
      if t = "script" ∨ t = "style" then decomposeList rest
      else .cons (.elem t (decomposeList cs)) (decomposeList rest)

mutual
/-- `element.get_text(strip=True)`: the concatenation of the stripped text
of all descendant text nodes, in document order. -/
def getTextNode (n : HtmlNode) : String :=
  match n with
  | .text s => pyStrip s
  | .elem _ cs => getTextList cs

def getTextList (l : NodeList) : String :=
  match l with
  | .nil => ""
  | .cons n rest => getTextNode n ++ getTextList rest
end

mutual
/-- `soup.find_all([...])`: the elements whose tag is in `tags`, in document
(pre-)order. -/
def findAllNode (tags : List String) (n : HtmlNode) : List HtmlNode :=
  match n with
  | .text _ => []
  | .elem t cs =>
    (if tags.contains t then [HtmlNode.elem t cs] else []) ++ findAllList tags cs

def findAllList (tags : List String) (l : NodeList) : List HtmlNode :=
  match l with
  | .nil => []
  | .cons n rest => findAllNode tags n ++ findAllList tags rest
end

/-- The fragment-collection loop of `clean_text`: for each element take
`text = element.get_text(strip=True)` and keep it only when
`text and len(text) > 10`. -/
def collectTexts : List HtmlNode → List String
  | [] => []
  | e :: rest =>
    let text := getTextNode e
    if text ≠ "" ∧ text.length > 10 then text :: collectTexts rest
    else collectTexts rest

/-- `clean_text(html)` from `app/utils/common.py`, on the parsed document:
remove script/style subtrees, collect the stripped text of every element in
the tag allow-list that passes the length filter, and join with newlines. -/
def clean_text (doc : NodeList) : String :=
  pyJoin "\n" (collectTexts (findAllList meaningfulTags (decomposeList doc)))

/-- What C7 claims `clean_text` computes, following the spec's words: keep
exactly the fragments whose length is at least 10. -/
def clean_text_claimed (doc : NodeList) : String :=
  pyJoin "\n"
    (((findAllList meaningfulTags (decomposeList doc)).map getTextNode).filter
      (fun t => t.length ≥ 10))

/-- A parsed page whose single paragraph text has exactly 10 characters. -/
def sampleDoc10 : NodeList :=
  .cons (.elem "p" (.cons (.text "aaaaaaaaaa") .nil)) .nil

/-- A parsed page whose single paragraph text has 11 characters. -/
def sampleDoc11 : NodeList :=
  .cons (.elem "p" (.cons (.text "aaaaaaaaaaa") .nil)) .nil

/-! ## Rate-Limited Fetcher (`scrape_url_async` in `app/utils/common.py`)

The network is abstracted as the outcome of `session.get(url, ...)`: either
a response with an HTTP status and a body, or a raised exception (timeout,
connection error, and any other failure all land in the `except` clause). -/

/-- The outcome of `session.get` and the body read, as seen by the caller. -/
inductive FetchOutcome where
  | response : Nat → String → FetchOutcome
  | exn : String → FetchOutcome
deriving DecidableEq

/-- `scrape_url_async(session, url)` from `app/utils/common.py`: body text on
a 200 response, empty string on any other status, and empty string when the
request raises (the exception is logged, never re-raised — totality of this
function is the no-raise contract). -/
def scrape_url_async (outcome : FetchOutcome) : String :=
  match outcome with
  | .response status body => if status = 200 then body else ""
  | .exn _ => ""

/-! ## Frontier Crawler (`crawl_website_async` in `app/utils/common.py`)

The collaborators are abstracted as function parameters: `web` maps a URL to
the string `scrape_url_async` returns for it (empty on failure, by C6);
`links` maps a page's URL and fetched html to the absolute URLs produced by
`urljoin(url, link["href"])` over `soup.find_all("a", href=True)`; `netloc`
is `urlparse(u).netloc`.  `should_skip_url` is embedded concretely. -/

/-- `skip_extensions` from `should_skip_url`. -/
def skip_extensions : List String :=
  [".pdf", ".jpg", ".jpeg", ".png", ".gif", ".zip", ".rar", ".exe", ".dmg",
   ".mp4", ".mp3", ".avi"]

/-- `skip_patterns` from `should_skip_url`. -/
def skip_patterns : List String :=
  ["#", "mailto:", "tel:", "javascript:", "ftp://"]

/-- Python `str.lower()` (ASCII model), character by character. -/
def pyToLower (s : String) : String := ⟨s.data.map Char.toLower⟩

/-- Substring containment on character lists (Python's `pattern in url`). -/
def listContainsSub (needle hay : List Char) : Bool :=
  hay.tails.any (fun t => needle.isPrefixOf t)

/-- `should_skip_url(url)` from `app/utils/common.py`: lowercase the URL,
skip when it ends with a known binary/media extension or contains one of the
non-HTTP/fragment patterns. -/
def should_skip_url (url : String) : Bool :=
  let url_lower := pyToLower url
  skip_extensions.any (fun ext => ext.data.isSuffixOf url_lower.data) ||
    skip_patterns.any (fun pat => listContainsSub pat.data url_lower.data)

/-- The state of one `crawl_website_async` run: the `visited` set, the
`data` mapping (an insertion-ordered dict), the `urls_to_visit` queue, and a
log of every fetch actually issued, paired with the visited set at the
moment the batch's fetches were dispatched. -/
structure CrawlState where
  visited : List String
  data : List (String × String)
  urls_to_visit : List String
  fetchLog : List (String × List String)
deriving DecidableEq

/-- Python dict assignment `d[k] = v`: update in place if the key exists,
otherwise append. -/
def dictSet (k v : String) (d : List (String × String)) : List (String × String) :=
  if d.any (fun p => p.1 == k) then d.map (fun p => if p.1 == k then (k, v) else p)
  else d ++ [(k, v)]

/-- The enqueue filter in the crawler's result loop: follow `full_url` only
when it shares the start URL's netloc, is not already visited or queued, and
does not match a skip rule. -/
def enqueueLinks (netloc : String → String) (start_url : String)
    (found : List String) (st : CrawlState) : CrawlState :=
  match found with
  | [] => st
  | full_url :: rest =>
    let st' :=
      if netloc full_url = netloc start_url ∧ ¬ st.visited.contains full_url ∧
          ¬ st.urls_to_visit.contains full_url ∧ ¬ should_skip_url full_url then
        { st with urls_to_visit := st.urls_to_visit ++ [full_url] }
      else st
    enqueueLinks netloc start_url rest st'

/-- The `for url, html in zip(current_batch, results)` loop: skip empty
results, mark the URL visited, store its content, and enqueue its links. -/
def processResults (links : String → String → List String)
    (netloc : String → String) (start_url : String)
    (pairs : List (String × String)) (st : CrawlState) : CrawlState :=
  match pairs with
  | [] => st
  | (url, html) :: rest =>
    let st' :=
      if html = "" then st
      else
        let st1 := { st with
          visited := if st.visited.contains url then st.visited else st.visited ++ [url],
          data := dictSet url html st.data }
        enqueueLinks netloc start_url (links url html) st1
    processResults links netloc start_url rest st'

/-- One iteration of the crawler's `while urls_to_visit:` loop: take a batch
of up to 5 queued URLs, fetch those not already visited (`asyncio.gather`
keeps the order of the created tasks, and `zip(current_batch, results)`
truncates to the shorter list, exactly as in the source), then process the
url/result pairs. -/
def crawlStep (web : String → String) (links : String → String → List String)
    (netloc : String → String) (start_url : String) (st : CrawlState) : CrawlState :=
  let batch_size := min 5 st.urls_to_visit.length
  let current_batch := st.urls_to_visit.take batch_size
  let remaining := st.urls_to_visit.drop batch_size
  let to_fetch := current_batch.filter (fun u => ¬ st.visited.contains u)
  let results := to_fetch.map web
  let st1 : CrawlState :=
    { st with
      urls_to_visit := remaining,
      fetchLog := st.fetchLog ++ to_fetch.map (fun u => (u, st.visited)) }
  processResults links netloc start_url (current_batch.zip results) st1

/-- The crawler's main loop: stop when the queue is empty or, when
`max_pages` is set, when the visited count has reached it.  `fuel` bounds
the number of iterations so the model is total; every theorem below holds
for every fuel value. -/
def crawlLoop (web : String → String) (links : String → String → List String)
    (netloc : String → String) (start_url : String) (max_pages : Option Nat) :
    Nat → CrawlState → CrawlState
  | 0, st => st
  | fuel + 1, st =>
    if st.urls_to_visit.isEmpty then st
    else
      match max_pages with
      | some n =>
        if n ≤ st.visited.length then st
        else crawlLoop web links netloc start_url max_pages fuel
          (crawlStep web links netloc start_url st)
      | none => crawlLoop web links netloc start_url max_pages fuel
          (crawlStep web links netloc start_url st)

/-- `crawl_website_async(start_url, max_pages)` from `app/utils/common.py`:
run the loop from the seeded queue with empty visited set and data map. -/
def crawl_website_async (web : String → String)
    (links : String → String → List String) (netloc : String → String)
    (start_url : String) (max_pages : Option Nat) (fuel : Nat) : CrawlState :=
  crawlLoop web links netloc start_url max_pages fuel
    ⟨[], [], [start_url], []⟩

/-- Invariant of a crawl run from `start_url`: every queued, visited, and
stored URL shares the start URL's netloc, and every dispatched fetch was for
a URL absent from the visited set at dispatch time. -/
def CrawlInv (netloc : String → String) (start_url : String) (st : CrawlState) : Prop :=
  (∀ u ∈ st.urls_to_visit, netloc u = netloc start_url) ∧
  (∀ u ∈ st.visited, netloc u = netloc start_url) ∧
  (∀ p ∈ st.data, netloc p.1 = netloc start_url) ∧
  (∀ e ∈ st.fetchLog, e.1 ∉ e.2)

/-- Bookkeeping invariant of the crawler state: the data mapping's keys are
distinct and all visited, and the visited set has no duplicates — hence the
returned mapping is never larger than the visited set. -/
def DataInv (st : CrawlState) : Prop :=
  (∀ k ∈ st.data.map (·.1), k ∈ st.visited) ∧
  (st.data.map (·.1)).Nodup ∧ st.visited.Nodup

/-- A three-page site used to exercise the crawler concretely: the start
page links to three further same-site pages. -/
def webEx : String → String := fun u =>
  if u = "s" then "hub" else if u = "a" ∨ u = "b" ∨ u = "c" then "leaf" else ""

/-- Concrete link extraction for `webEx`: only the hub page has links. -/
def linksEx : String → String → List String := fun _ html =>
  if html = "hub" then ["a", "b", "c"] else []

/-- Concrete netloc function for `webEx`: a single-host site. -/
def netlocEx : String → String := fun _ => "site.test"

/-! ## Task Orchestrator and Progress Store (`app/api/routes.py`)

Python `datetime` values become `Nat` timestamps in seconds.  The `error`
field is `String` with `""` standing for Python's `None`: the code only
tests the field's truthiness, and `None` and `""` are equally falsy. -/

/-- Task lifecycle status strings written by the orchestrator. -/
inductive Status where
  | crawling
  | processing
  | generating_embeddings
  | storing
  | completed
  | error
deriving DecidableEq

/-- Position of a status along the forward direction of the lifecycle
(`error` ranks last: it is reachable from anywhere and terminal). -/
def statusRank : Status → Nat
  | .crawling => 0
  | .processing => 1
  | .generating_embeddings => 2
  | .storing => 3
  | .completed => 4
  | .error => 5

/-- A task's progress snapshot: the per-task dict stored in
`scraping_progress[user_id][task_id]`. -/
structure TaskSnapshot where
  status : Status
  start_time : Nat
  last_update : Nat
  pages_scraped : Nat
  chunks_created : Nat
  error : String
  is_completed : Bool
  url : String
  result : Option (String × Nat × Nat)
deriving DecidableEq

/-- The keyword arguments a single `update_progress` call may carry. -/
structure ProgressUpdate where
  status : Status
  pages_scraped : Option Nat := none
  chunks_created : Option Nat := none
  error : Option String := none
  result : Option (String × Nat × Nat) := none
deriving DecidableEq

/-- The snapshot-merging part of `update_progress`: write the new status,
refresh `last_update`, merge the keyword arguments, and set `is_completed`
when the new status is `completed` or `error`. -/
def applyUpdate (now : Nat) (u : ProgressUpdate) (s : TaskSnapshot) : TaskSnapshot :=
  let s' : TaskSnapshot :=
    { s with
      status := u.status,
      last_update := now,
      pages_scraped := u.pages_scraped.getD s.pages_scraped,
      chunks_created := u.chunks_created.getD s.chunks_created,
      error := u.error.getD s.error,
      result := match u.result with | some r => some r | none => s.result }
  if u.status = Status.completed ∨ u.status = Status.error then
    { s' with is_completed := true }
  else s'

/-- Left fold of timed updates over a snapshot (repeated `update_progress`
calls on the same task). -/
def applyUpdates (s : TaskSnapshot) (l : List (Nat × ProgressUpdate)) : TaskSnapshot :=
  l.foldl (fun acc tu => applyUpdate tu.1 tu.2 acc) s

/-- `MAX_CONCURRENT_TASKS` from `app/api/routes.py`. -/
def MAX_CONCURRENT_TASKS : Nat := 3

/-- The snapshot `scrape_and_ingest` initialises for a new task. -/
def initialSnapshot (now : Nat) (url : String) : TaskSnapshot :=
  { status := .crawling, start_time := now, last_update := now,
    pages_scraped := 0, chunks_created := 0, error := "",
    is_completed := false, url := url, result := none }

/-- The module-level mutable state of `app/api/routes.py`:
`scraping_progress` (user → task → snapshot, flattened to an association
list keyed by the pair) and `active_tasks` (user → set of task ids). -/
structure SysState where
  scraping_progress : List ((String × String) × TaskSnapshot)
  active_tasks : String → List String

/-- Python nested dict assignment
`scraping_progress[user_id][task_id] = snap`: replace in place when the key
exists, append otherwise. -/
def storeSet (user task : String) (snap : TaskSnapshot)
    (l : List ((String × String) × TaskSnapshot)) :
    List ((String × String) × TaskSnapshot) :=
  if l.any (fun e => e.1 == (user, task)) then
    l.map (fun e => if e.1 == (user, task) then ((user, task), snap) else e)
  else l ++ [((user, task), snap)]

/-- `scrape_and_ingest` admission control and task creation: reject with
HTTP 429 when the user's active set has reached `MAX_CONCURRENT_TASKS`,
otherwise store the initial snapshot, add the task id to the user's active
set, and schedule the background run.  Returns the response and the
successor state. -/
def scrape_and_ingest (now : Nat) (user task url : String) (st : SysState) :
    Except Nat String × SysState :=
  if MAX_CONCURRENT_TASKS ≤ (st.active_tasks user).length then
    (Except.error 429, st)
  else
    (Except.ok task,
     { scraping_progress :=
         storeSet user task (initialSnapshot now url) st.scraping_progress,
       active_tasks := fun u =>
         if u = user then
           if (st.active_tasks user).contains task then st.active_tasks user
           else st.active_tasks user ++ [task]
         else st.active_tasks u })

/-- `update_progress(user_id, task_id, status, **kwargs)`: a no-op when the
task id is unknown for that user. -/
def update_progress (now : Nat) (user task : String) (u : ProgressUpdate)
    (st : SysState) : SysState :=
  match st.scraping_progress.lookup (user, task) with
  | none => st
  | some snap =>
    { st with scraping_progress :=
        storeSet user task (applyUpdate now u snap) st.scraping_progress }

/-- `active_tasks[user_id].discard(task_id)` from the `finally` clause of
`process_scraping`. -/
def discardTask (user task : String) (st : SysState) : SysState :=
  { st with active_tasks := fun u =>
      if u = user then (st.active_tasks user).filter (fun t => ¬ t == task)
      else st.active_tasks u }

/-- `get_scraping_progress(task_id)`: 404 when the task id is unknown for
the requesting user; otherwise return the stored snapshot, first refreshing
its `last_update` when the task is neither completed nor errored and the
last update is at least 2 seconds old. -/
def get_scraping_progress (now : Nat) (user task : String) (st : SysState) :
    Except Nat TaskSnapshot × SysState :=
  match st.scraping_progress.lookup (user, task) with
  | none => (Except.error 404, st)
  | some snap =>
    if snap.is_completed ∨ snap.error ≠ "" then (Except.ok snap, st)
    else if now - snap.last_update < 2 then (Except.ok snap, st)
    else
      (Except.ok { snap with last_update := now },
       { st with scraping_progress :=
           (storeSet user task ({ snap with last_update := now })
             st.scraping_progress) })

/-- An event on the shared orchestrator state: a creation request, one
`update_progress` call from a running task, the `finally` discard at the
end of a run, or a progress poll. -/
inductive Event where
  | create : Nat → String → String → String → Event
  | update : Nat → String → String → ProgressUpdate → Event
  | finish : String → String → Event
  | poll : Nat → String → String → Event

/-- Apply one event to the state. -/
def stepEvent (st : SysState) (e : Event) : SysState :=
  match e with
  | .create now user task url => (scrape_and_ingest now user task url st).2
  | .update now user task u => update_progress now user task u st
  | .finish user task => discardTask user task st
  | .poll now user task => (get_scraping_progress now user task st).2

/-- The event orderings `app/api/routes.py` can produce: an `update` for a
task is issued only by that task's own `process_scraping` run, which
executes between the task's registration and its `finally` discard, so the
task is then in the user's active set; and every code path of
`process_scraping` writes a terminal update (`completed` or `error`) as its
last update before the discard, and no other writer changes `status` or
`is_completed`, so at discard time the stored snapshot is terminal. -/
def legalEvent (st : SysState) (e : Event) : Bool :=
  match e with
  | .create _ _ _ _ => true
  | .update _ user task _ => (st.active_tasks user).contains task
  | .finish user task =>
    match st.scraping_progress.lookup (user, task) with
    | none => true
    | some snap => snap.is_completed
  | .poll _ _ _ => true

/-- Run a sequence of events. -/
def execEvents : SysState → List Event → SysState
  | st, [] => st
  | st, e :: rest => execEvents (stepEvent st e) rest

/-- Does every event of the sequence satisfy `legalEvent` in the state it
is applied to? -/
def legalEvents : SysState → List Event → Bool
  | _, [] => true
  | st, e :: rest => legalEvent st e && legalEvents (stepEvent st e) rest

/-- The module state at process start: both tables empty. -/
def initState : SysState := { scraping_progress := [], active_tasks := fun _ => [] }

/-- The number of the user's tasks whose stored snapshot is non-terminal. -/
def nonTerminalCount (st : SysState) (user : String) : Nat :=
  (st.scraping_progress.filter
    (fun e => e.1.1 == user && !e.2.is_completed)).length

/-- Invariant tying the progress table to the active sets: active sets are
within the cap, progress keys are distinct, and every non-terminal snapshot
belongs to a task currently in its user's active set. -/
def SysInv (st : SysState) : Prop :=
  (∀ user, (st.active_tasks user).length ≤ MAX_CONCURRENT_TASKS) ∧
  (st.scraping_progress.map (·.1)).Nodup ∧
  (∀ e ∈ st.scraping_progress, e.2.is_completed = false →
    (st.active_tasks e.1.1).contains e.1.2)

/-! ## The `process_scraping` run (C4)

The run's collaborators are abstracted: `clean` is `clean_text` on the raw
html (BeautifulSoup parsing included), `pages` is the mapping returned by
the crawler in insertion order, and an unhandled exception is modelled by
the index after which it interrupts the `try` block. -/

/-- The chunks one fetched page contributes in the processing loop:
non-empty html is cleaned, and if the cleaned text survives stripping it is
chunked with `chunk_size=64, overlap=10`. -/
def pageChunks (clean : String → String) (html : String) : List String :=
  if html ≠ "" then
    if pyStrip (clean html) ≠ "" then create_chunks (clean html) 64 10 else []
  else []

/-- `range(0, len(l), n)` slicing into batches (fuel-bounded, fuel
`l.length` always suffices for `n > 0`). -/
def batchedAux (n : Nat) : Nat → List α → List (List α)
  | 0, _ => []
  | _, [] => []
  | fuel + 1, l => l.take n :: batchedAux n fuel (l.drop n)

/-- Fixed-size batching as used for pages (5) and embeddings (50). -/
def batched (n : Nat) (l : List α) : List (List α) := batchedAux n l.length l

/-- Running totals: the `chunks_created` counts published after each page
batch. -/
def cumulSums (acc : Nat) : List Nat → List Nat
  | [] => []
  | n :: rest => (acc + n) :: cumulSums (acc + n) rest

/-- The sequence of `update_progress` calls of one `process_scraping` run
that is not interrupted by an unhandled exception, as a function of the
crawl result and the cleaner; the two early `error` returns (no pages, no
chunks) are the code's own branches. -/
def normalRun (clean : String → String) (collection : String)
    (pages : List (String × String)) : List ProgressUpdate :=
  { status := Status.crawling } ::
  (if pages.length = 0 then
    [{ status := Status.error,
       error := some "No pages could be scraped from the provided URL" }]
  else
    { status := Status.crawling, pages_scraped := some pages.length } ::
    { status := Status.processing } ::
    ((cumulSums 0 ((batched 5 pages).map
        (fun b => (b.map (fun p => (pageChunks clean p.2).length)).sum))).map
      (fun cnt => { status := Status.processing, chunks_created := some cnt })) ++
    (if ((pages.map (fun p => pageChunks clean p.2)).flatten).length = 0 then
      [{ status := Status.error,
         error := some "No valid text content found to ingest from the website" }]
    else
      [{ status := Status.generating_embeddings },
       { status := Status.storing },
       { status := Status.completed,
         result := some (collection, pages.length,
           ((pages.map (fun p => pageChunks clean p.2)).flatten).length) }]))

/-- The update sequence of a run: either the uninterrupted sequence, or a
proper prefix of it (an unhandled exception can strike between any two
statements of the `try` block, but nothing can raise after the run's final
update) followed by the `except` clause's error update. -/
def runUpdates (clean : String → String) (collection : String)
    (pages : List (String × String)) (exnAt : Option (Nat × String)) :
    List ProgressUpdate :=
  match exnAt with
  | none => normalRun clean collection pages
  | some (k, msg) =>
    if k < (normalRun clean collection pages).length then
      (normalRun clean collection pages).take k ++
        [{ status := Status.error, error := some msg }]
    else normalRun clean collection pages

/-- No element before the last one is terminal. -/
def NTBeforeLast (l : List ProgressUpdate) : Prop :=
  ∀ pre u suf, l = pre ++ u :: suf → suf ≠ [] →
    u.status ≠ Status.completed ∧ u.status ≠ Status.error

/-- The shape every chunk of `create_chunks` has: either the summed sentence
length fits the chunk size, or the chunk is an overlap seed of summed length
at most `overlap` followed by one final sentence. -/
def ChunkBound (chunk_size overlap : Nat) (c : List String) : Prop :=
  sumLens c ≤ chunk_size ∨ ∃ seed last, c = seed ++ [last] ∧ sumLens seed ≤ overlap

/-- A string containing at least one non-whitespace character (what survives
the code's `if chunk_text.strip():` emptiness checks). -/
def HasInk (s : String) : Prop := ∃ c ∈ s.data, isPySpace c = false

/-! ## Basic lemmas about the chunker -/

theorem sumLens_nil : sumLens [] = 0 := rfl

theorem sumLens_cons (s : String) (l : List String) :
    sumLens (s :: l) = s.length + sumLens l := by
  simp [sumLens]

theorem sumLens_append (l₁ l₂ : List String) :
    sumLens (l₁ ++ l₂) = sumLens l₁ + sumLens l₂ := by
  simp [sumLens]

theorem seedGo_snd (ov : Nat) :
    ∀ (rs : List String) (size : Nat) (acc : List String),
      size = sumLens acc →
      (seedGo ov rs size acc).2 = sumLens (seedGo ov rs size acc).1 := by
  intro rs
  induction rs with
  | nil => intro size acc h; simpa [seedGo] using h
  | cons s rest ih =>
    intro size acc h
    simp only [seedGo]
    split
    · exact ih _ _ (by rw [sumLens_cons, h]; omega)
    · simpa using h

theorem seedGo_le (ov : Nat) :
    ∀ (rs : List String) (size : Nat) (acc : List String),
      size ≤ ov → (seedGo ov rs size acc).2 ≤ ov := by
  intro rs
  induction rs with
  | nil => intro size acc h; simpa [seedGo] using h
  | cons s rest ih =>
    intro size acc h
    simp only [seedGo]
    split
    · next hfit => exact ih _ _ hfit
    · simpa using h

theorem overlapSeed_snd (chunk : List String) (ov : Nat) :
    (overlapSeed chunk ov).2 = sumLens (overlapSeed chunk ov).1 :=
  seedGo_snd ov chunk.reverse 0 [] rfl

theorem overlapSeed_sumLens_le (chunk : List String) (ov : Nat) :
    sumLens (overlapSeed chunk ov).1 ≤ ov := by
  rw [← overlapSeed_snd]
  exact seedGo_le ov chunk.reverse 0 [] (Nat.zero_le ov)

theorem pyJoin_space_length :
    ∀ (l : List String), l ≠ [] → (pyJoin " " l).length + 1 = sumLens l + l.length
  | [s], _ => by simp [pyJoin, sumLens]
  | s :: t :: r, _ => by
    have ih := pyJoin_space_length (t :: r) (by simp)
    have hsp : (" " : String).length = 1 := rfl
    simp only [pyJoin, String.length_append, sumLens_cons, List.length_cons, hsp] at *
    omega

theorem chunksGo_ne_nil (cs ov : Nat) :
    ∀ (rest cur : List String) (size : Nat),
      ∀ c ∈ chunksGo cs ov rest cur size, c ≠ [] := by
  intro rest
  induction rest with
  | nil =>
    intro cur size c hc
    simp only [chunksGo] at hc
    split at hc
    · simp at hc
    · split at hc
      · simp at hc
      · next hemp _ =>
        simp only [List.mem_singleton] at hc
        subst hc
        simpa [List.isEmpty_iff] using hemp
  | cons sentence rest ih =>
    intro cur size c hc
    simp only [chunksGo] at hc
    split at hc
    · exact ih _ _ _ hc
    · split at hc
      · next hcl =>
        have hcne : cur ≠ [] := by
          have := ((Bool.and_eq_true _ _).mp hcl).2
          simpa [List.isEmpty_iff] using this
        rw [List.mem_append] at hc
        rcases hc with hc | hc
        · split at hc
          · simp at hc
          · simp only [List.mem_singleton] at hc
            subst hc
            exact hcne
        · exact ih _ _ _ hc
      · exact ih _ _ _ hc

theorem chunksGo_bound (cs ov : Nat) :
    ∀ (rest cur : List String) (size : Nat),
      size = sumLens cur →
      ChunkBound cs ov cur →
      ∀ c ∈ chunksGo cs ov rest cur size, ChunkBound cs ov c := by
  intro rest
  induction rest with
  | nil =>
    intro cur size hsz hb c hc
    simp only [chunksGo] at hc
    split at hc
    · simp at hc
    · split at hc
      · simp at hc
      · simp only [List.mem_singleton] at hc; subst hc; exact hb
  | cons sentence rest ih =>
    intro cur size hsz hb c hc
    simp only [chunksGo] at hc
    split at hc
    · exact ih _ _ hsz hb c hc
    · split at hc
      · next hcl =>
        have hcl' := (Bool.and_eq_true _ _).mp hcl
        rw [List.mem_append] at hc
        rcases hc with hc | hc
        · split at hc
          · simp at hc
          · simp only [List.mem_singleton] at hc; subst hc; exact hb
        · refine ih _ _ ?_ ?_ c hc
          · rw [sumLens_append, sumLens_cons, sumLens_nil, overlapSeed_snd]
            omega
          · exact Or.inr ⟨(overlapSeed cur ov).1, pyStrip sentence, rfl,
              overlapSeed_sumLens_le cur ov⟩
      · next hcl =>
        rcases Bool.and_eq_false_iff.mp (Bool.not_eq_true _ ▸ hcl) with h | h
        · refine ih _ _ ?_ ?_ c hc
          · rw [sumLens_append, sumLens_cons, sumLens_nil]; omega
          · have hle : size + (pyStrip sentence).length ≤ cs := by
              have := of_decide_eq_false h
              omega
            exact Or.inl (by rw [sumLens_append, sumLens_cons, sumLens_nil]; omega)
        · have hcur : cur = [] := by
            simpa [List.isEmpty_iff] using h
          subst hcur
          refine ih _ _ ?_ ?_ c hc
          · rw [hsz, sumLens_append, sumLens_cons, sumLens_nil]; omega
          · exact Or.inr ⟨[], pyStrip sentence, by simp, by simp [sumLens]⟩

/-- C1: For every text, chunk size `S` and overlap `O < S`, every chunk of
`create_chunks` is a nonempty group of sentences joined by single spaces
whose summed sentence length either is at most `S` or belongs to a chunk of
the form overlap-seed (summed length at most `O`) followed by one final
sentence; the chunk's string length is the summed sentence length plus one
joining space per adjacent pair. -/
theorem create_chunks_length_bound (text : String) (S O : Nat) (_hO : O < S) :
    ∀ c ∈ create_chunks text S O, ∃ ss : List String, ss ≠ [] ∧
      c = pyJoin " " ss ∧ c.length + 1 = sumLens ss + ss.length ∧
      (sumLens ss ≤ S ∨ ∃ seed last, ss = seed ++ [last] ∧ sumLens seed ≤ O) := by
  intro c hc
  simp only [create_chunks, List.mem_map] at hc
  obtain ⟨ss, hss, rfl⟩ := hc
  by_cases h : text == ""
  · simp [create_chunks_sentences, h] at hss
  · have hss' : ss ∈ chunksGo S O (splitSentences text) [] 0 := by
      simpa [create_chunks_sentences, h] using hss
    have hne : ss ≠ [] := chunksGo_ne_nil S O _ [] 0 ss hss'
    have hb : ChunkBound S O ss :=
      chunksGo_bound S O _ [] 0 rfl (Or.inl (by simp [sumLens])) ss hss'
    exact ⟨ss, hne, rfl, pyJoin_space_length ss hne, hb⟩

/-- C1 counterexample: with text "ab. c.", chunk size 5 and overlap 2, the
single produced chunk "ab. c." has length 6 > 5 although it consists of two
sentences, each of length at most 5 — the claim's only allowed exception (a
single sentence longer than the chunk size) does not apply, so the claimed
bound is false: the code does not count the joining spaces. -/
theorem create_chunks_length_bound_cex :
    create_chunks "ab. c." 5 2 = ["ab. c."] ∧
    ("ab. c." : String).length = 6 ∧
    splitSentences "ab. c." = ["ab.", "c."] ∧
    (∀ s ∈ splitSentences "ab. c.", s.length ≤ 5) := by
  refine ⟨by decide, by decide, by decide, by decide⟩

/-! ## Overlap seeding (C8) -/

theorem sumLens_suffix_le {l₁ l₂ : List String} (h : l₁ <:+ l₂) :
    sumLens l₁ ≤ sumLens l₂ := by
  obtain ⟨pre, rfl⟩ := h
  rw [sumLens_append]
  omega

theorem seedGo_fst_suffix (ov : Nat) :
    ∀ (rs : List String) (size : Nat) (acc : List String),
      (seedGo ov rs size acc).1 <:+ rs.reverse ++ acc := by
  intro rs
  induction rs with
  | nil => intro size acc; simp [seedGo]
  | cons s rest ih =>
    intro size acc
    simp only [seedGo, List.reverse_cons, List.append_assoc, List.singleton_append]
    split
    · exact ih _ _
    · exact ⟨rest.reverse ++ [s], by simp⟩

theorem seedGo_acc_suffix (ov : Nat) :
    ∀ (rs : List String) (size : Nat) (acc : List String),
      acc <:+ (seedGo ov rs size acc).1 := by
  intro rs
  induction rs with
  | nil => intro size acc; exact List.suffix_refl _
  | cons s rest ih =>
    intro size acc
    simp only [seedGo]
    split
    · exact List.IsSuffix.trans (List.suffix_cons s acc) (ih _ _)
    · exact List.suffix_refl _

theorem seedGo_max (ov : Nat) :
    ∀ (rs : List String) (size : Nat) (acc t : List String),
      size = sumLens acc →
      t <:+ rs.reverse ++ acc → acc <:+ t → sumLens t ≤ ov →
      t <:+ (seedGo ov rs size acc).1 := by
  intro rs
  induction rs with
  | nil =>
    intro size acc t _ ht hat _
    simp only [List.reverse_nil, List.nil_append] at ht
    have heq : t = acc := ht.eq_of_length (Nat.le_antisymm ht.length_le hat.length_le)
    subst heq
    exact seedGo_acc_suffix ov [] size t
  | cons s rest ih =>
    intro size acc t hsz ht hat hsum
    rw [List.reverse_cons, List.append_assoc, List.singleton_append] at ht
    simp only [seedGo]
    split
    · next hfit =>
      rcases List.suffix_or_suffix_of_suffix ht (List.suffix_append rest.reverse (s :: acc))
        with h1 | h1
      · rcases List.suffix_cons_iff.mp h1 with rfl | h2
        · exact seedGo_acc_suffix ov rest _ _
        · have heq : t = acc := h2.eq_of_length (Nat.le_antisymm h2.length_le hat.length_le)
          subst heq
          exact List.IsSuffix.trans (List.suffix_cons s t) (seedGo_acc_suffix ov rest _ _)
      · exact ih _ _ t (by rw [sumLens_cons, hsz]; omega) ht h1 hsum
    · next hfit =>
      rcases List.suffix_or_suffix_of_suffix ht (List.suffix_append rest.reverse (s :: acc))
        with h1 | h1
      · rcases List.suffix_cons_iff.mp h1 with rfl | h2
        · exfalso
          rw [sumLens_cons, ← hsz] at hsum
          omega
        · exact h2
      · exfalso
        have : sumLens (s :: acc) ≤ sumLens t := sumLens_suffix_le h1
        rw [sumLens_cons, ← hsz] at this
        omega

theorem overlapSeed_suffix (chunk : List String) (ov : Nat) :
    (overlapSeed chunk ov).1 <:+ chunk := by
  simpa using seedGo_fst_suffix ov chunk.reverse 0 []

theorem overlapSeed_max (chunk : List String) (ov : Nat) :
    ∀ t, t <:+ chunk → sumLens t ≤ ov → t <:+ (overlapSeed chunk ov).1 := by
  intro t ht hsum
  exact seedGo_max ov chunk.reverse 0 [] t rfl (by simpa using ht) List.nil_suffix hsum

theorem overlapSeed_ne_nil (chunk : List String) (last : String) (ov : Nat)
    (h : last.length ≤ ov) : (overlapSeed (chunk ++ [last]) ov).1 ≠ [] := by
  have hsuf : [last] <:+ (overlapSeed (chunk ++ [last]) ov).1 :=
    overlapSeed_max (chunk ++ [last]) ov [last] (List.suffix_append chunk [last])
      (by simpa [sumLens] using h)
  exact List.IsSuffix.ne_nil hsuf (by simp)

theorem dropWhile_exists_not {p : Char → Bool} :
    ∀ l : List Char, l.dropWhile p ≠ [] → ∃ c ∈ l.dropWhile p, p c = false := by
  intro l
  induction l with
  | nil => intro h; simp at h
  | cons c rest ih =>
    intro h
    by_cases hpc : p c = true
    · rw [List.dropWhile_cons, if_pos hpc] at h ⊢
      exact ih h
    · rw [List.dropWhile_cons, if_neg hpc] at h ⊢
      exact ⟨c, List.mem_cons_self c rest, by simpa using hpc⟩

theorem pyStrip_hasInk {s : String} (h : pyStrip s ≠ "") : HasInk (pyStrip s) := by
  have hne : ((s.data.dropWhile isPySpace).reverse).dropWhile isPySpace ≠ [] := by
    intro hc
    apply h
    show (⟨(((s.data.dropWhile isPySpace).reverse).dropWhile isPySpace).reverse⟩ : String) = ""
    rw [hc]
    rfl
  obtain ⟨c, hc, hpc⟩ := dropWhile_exists_not _ hne
  exact ⟨c, by simpa [pyStrip, List.mem_reverse] using hc, hpc⟩

theorem mem_pyJoin_data (sep : String) :
    ∀ (l : List String) (s : String), s ∈ l → ∀ c ∈ s.data, c ∈ (pyJoin sep l).data := by
  intro l
  induction l with
  | nil => intro s hs; simp at hs
  | cons x rest ih =>
    intro s hs c hc
    cases rest with
    | nil =>
      simp only [List.mem_singleton] at hs
      subst hs
      simpa [pyJoin] using hc
    | cons y t =>
      rcases List.mem_cons.mp hs with rfl | hs'
      · simp only [pyJoin, String.data_append, List.mem_append]
        exact Or.inl (Or.inl hc)
      · simp only [pyJoin, String.data_append, List.mem_append]
        exact Or.inr (ih s hs' c hc)

theorem pyStrip_eq_empty (u : String) (h : pyStrip u = "") :
    ∀ d ∈ u.data, isPySpace d = true := by
  have h2 : (((u.data.dropWhile isPySpace).reverse).dropWhile isPySpace).reverse = [] :=
    congrArg String.data h
  rw [List.reverse_eq_nil_iff, List.dropWhile_eq_nil_iff] at h2
  intro d hd
  by_cases hmem : d ∈ u.data.dropWhile isPySpace
  · exact h2 d (List.mem_reverse.mpr hmem)
  · have hsplit : u.data = u.data.takeWhile isPySpace ++ u.data.dropWhile isPySpace :=
      (List.takeWhile_append_dropWhile ..).symm
    rw [hsplit, List.mem_append] at hd
    rcases hd with hd | hd
    · exact List.mem_takeWhile_imp hd
    · exact absurd hd hmem

theorem pyJoin_strip_ne {l : List String} (h : ∃ s ∈ l, HasInk s) :
    pyStrip (pyJoin " " l) ≠ "" := by
  obtain ⟨s, hs, c, hc, hpc⟩ := h
  intro hcontra
  have := pyStrip_eq_empty _ hcontra c (mem_pyJoin_data " " l s hs c hc)
  simp [this] at hpc

theorem chunksGo_elems (cs ov : Nat) :
    ∀ (rest cur : List String) (size : Nat),
      (∀ s ∈ cur, HasInk s) →
      ∀ c ∈ chunksGo cs ov rest cur size, ∀ s ∈ c, HasInk s := by
  intro rest
  induction rest with
  | nil =>
    intro cur size hinv c hc
    simp only [chunksGo] at hc
    split at hc
    · simp at hc
    · split at hc
      · simp at hc
      · simp only [List.mem_singleton] at hc; subst hc; exact hinv
  | cons sentence rest ih =>
    intro cur size hinv c hc
    simp only [chunksGo] at hc
    split at hc
    · exact ih _ _ hinv c hc
    · next hstr =>
      split at hc
      · rw [List.mem_append] at hc
        rcases hc with hc | hc
        · split at hc
          · simp at hc
          · simp only [List.mem_singleton] at hc; subst hc; exact hinv
        · refine ih _ _ ?_ c hc
          intro s hs
          rw [List.mem_append] at hs
          rcases hs with hs | hs
          · exact hinv s ((overlapSeed_suffix cur ov).subset hs)
          · simp only [List.mem_singleton] at hs
            subst hs
            exact pyStrip_hasInk (by simpa using hstr)
      · refine ih _ _ ?_ c hc
        intro s hs
        rw [List.mem_append] at hs
        rcases hs with hs | hs
        · exact hinv s hs
        · simp only [List.mem_singleton] at hs
          subst hs
          exact pyStrip_hasInk (by simpa using hstr)

theorem chunksGo_chain (cs ov : Nat) :
    ∀ (rest cur : List String) (size : Nat),
      (∀ s ∈ cur, HasInk s) →
      List.Chain' (fun a b => (overlapSeed a ov).1 <+: b) (chunksGo cs ov rest cur size) ∧
      (cur ≠ [] → ∃ ext tl, chunksGo cs ov rest cur size = (cur ++ ext) :: tl) := by
  intro rest
  induction rest with
  | nil =>
    intro cur size hinv
    by_cases hcur : cur = []
    · subst hcur
      simp [chunksGo]
    · have hstrip : pyStrip (pyJoin " " cur) ≠ "" := by
        apply pyJoin_strip_ne
        cases cur with
        | nil => exact absurd rfl hcur
        | cons x t => exact ⟨x, List.mem_cons_self x t, hinv x (List.mem_cons_self x t)⟩
      have hres : chunksGo cs ov [] cur size = [cur] := by
        simp only [chunksGo]
        rw [if_neg (by simpa [List.isEmpty_iff] using hcur), if_neg (by simpa using hstrip)]
      rw [hres]
      exact ⟨List.chain'_singleton cur, fun _ => ⟨[], [], by simp⟩⟩
  | cons sentence rest ih =>
    intro cur size hinv
    simp only [chunksGo]
    split
    · exact ih _ _ hinv
    · next hstr =>
      have hsink : HasInk (pyStrip sentence) := pyStrip_hasInk (by simpa using hstr)
      split
      · next hclose =>
        have hcur : cur ≠ [] := by
          have := ((Bool.and_eq_true _ _).mp hclose).2
          simpa [List.isEmpty_iff] using this
        have hstrip : pyStrip (pyJoin " " cur) ≠ "" := by
          apply pyJoin_strip_ne
          cases cur with
          | nil => exact absurd rfl hcur
          | cons x t => exact ⟨x, List.mem_cons_self x t, hinv x (List.mem_cons_self x t)⟩
        rw [if_neg (by simpa using hstrip)]
        have hinv' : ∀ s ∈ (overlapSeed cur ov).1 ++ [pyStrip sentence], HasInk s := by
          intro s hs
          rw [List.mem_append] at hs
          rcases hs with hs | hs
          · exact hinv s ((overlapSeed_suffix cur ov).subset hs)
          · simp only [List.mem_singleton] at hs; subst hs; exact hsink
        obtain ⟨hchain, hfirst⟩ := ih ((overlapSeed cur ov).1 ++ [pyStrip sentence])
          ((overlapSeed cur ov).2 + (pyStrip sentence).length) hinv'
        obtain ⟨ext, tl, heq⟩ := hfirst (by simp)
        constructor
        · rw [heq]
          refine List.chain'_cons.mpr ⟨?_, heq ▸ hchain⟩
          exact ⟨[pyStrip sentence] ++ ext, by simp⟩
        · intro _
          exact ⟨[], chunksGo cs ov rest ((overlapSeed cur ov).1 ++ [pyStrip sentence])
            ((overlapSeed cur ov).2 + (pyStrip sentence).length), by simp⟩
      · have hinv' : ∀ s ∈ cur ++ [pyStrip sentence], HasInk s := by
          intro s hs
          rw [List.mem_append] at hs
          rcases hs with hs | hs
          · exact hinv s hs
          · simp only [List.mem_singleton] at hs; subst hs; exact hsink
        obtain ⟨hchain, hfirst⟩ := ih (cur ++ [pyStrip sentence])
          (size + (pyStrip sentence).length) hinv'
        refine ⟨hchain, fun hcur => ?_⟩
        obtain ⟨ext, tl, heq⟩ := hfirst (by simp)
        exact ⟨[pyStrip sentence] ++ ext, tl, by rw [heq]; simp⟩

/-- C8: whenever `create_chunks` closes a chunk, the next chunk begins with
`overlap_sentences` computed from the just-closed chunk, and that seed is
precisely the maximal suffix of the closed chunk's sentences whose summed
length does not exceed the overlap; the seed is nonempty whenever the
closed chunk's final sentence alone fits within the overlap budget. -/
theorem create_chunks_overlap_seeding (text : String) (S O : Nat) :
    List.Chain' (fun a b => (overlapSeed a O).1 <+: b)
      (create_chunks_sentences text S O) ∧
    (∀ c : List String, (overlapSeed c O).1 <:+ c ∧
      sumLens (overlapSeed c O).1 ≤ O ∧
      (∀ t, t <:+ c → sumLens t ≤ O → t <:+ (overlapSeed c O).1)) ∧
    (∀ (c : List String) (last : String), last.length ≤ O →
      (overlapSeed (c ++ [last]) O).1 ≠ []) := by
  refine ⟨?_,
    fun c => ⟨overlapSeed_suffix c O, overlapSeed_sumLens_le c O, overlapSeed_max c O⟩,
    fun c last h => overlapSeed_ne_nil c last O h⟩
  unfold create_chunks_sentences
  split
  · exact List.chain'_nil
  · exact (chunksGo_chain S O (splitSentences text) [] 0 (by simp)).1

theorem create_chunks_overlap_seeding_witness :
    List.Chain' (fun a b => (overlapSeed a 9).1 <+: b)
      (create_chunks_sentences "aaaaaaaa. bbbbbbbb." 10 9) ∧
    ["aaaaaaaa."] <:+ (overlapSeed ["aaaaaaaa."] 9).1 ∧
    (overlapSeed (["x."] ++ ["y."]) 9).1 ≠ [] :=
  ⟨(create_chunks_overlap_seeding "aaaaaaaa. bbbbbbbb." 10 9).1,
   ((create_chunks_overlap_seeding "aaaaaaaa. bbbbbbbb." 10 9).2.1 ["aaaaaaaa."]).2.2
     ["aaaaaaaa."] (List.suffix_refl _) (by decide),
   (create_chunks_overlap_seeding "aaaaaaaa. bbbbbbbb." 10 9).2.2 ["x."] "y." (by decide)⟩

theorem create_chunks_length_bound_witness :
    ∃ ss : List String, ss ≠ [] ∧
      ("ab. c." : String) = pyJoin " " ss ∧
      ("ab. c." : String).length + 1 = sumLens ss + ss.length ∧
      (sumLens ss ≤ 5 ∨ ∃ seed last, ss = seed ++ [last] ∧ sumLens seed ≤ 2) :=
  create_chunks_length_bound "ab. c." 5 2 (by decide) "ab. c." (by decide)

/-! ## HTML Cleaner lemmas (C7) -/

theorem data_eq_nil_iff (s : String) : s.data = [] ↔ s = "" := by
  constructor
  · intro h
    cases s with
    | mk d => subst h; rfl
  · intro h; subst h; rfl

theorem pyJoin_ne_empty (sep : String) :
    ∀ l : List String, l ≠ [] → (∀ s ∈ l, s ≠ "") → pyJoin sep l ≠ ""
  | [x], _, hall => hall x (List.mem_singleton.mpr rfl)
  | x :: y :: t, _, hall => by
    intro hc
    have hdata : (x ++ sep ++ pyJoin sep (y :: t)).data = [] := congrArg String.data hc
    simp only [String.data_append, List.append_eq_nil] at hdata
    exact hall x (List.mem_cons_self _ _) ((data_eq_nil_iff x).mp hdata.1.1)

theorem collectTexts_eq :
    ∀ l : List HtmlNode,
      collectTexts l = (l.map getTextNode).filter (fun t => t.length > 10) := by
  intro l
  induction l with
  | nil => rfl
  | cons e rest ih =>
    simp only [collectTexts, List.map_cons, List.filter_cons]
    by_cases h : (getTextNode e).length > 10
    · have hne : getTextNode e ≠ "" := by
        intro hcontra
        rw [hcontra] at h
        simp at h
      rw [if_pos ⟨hne, h⟩, ih]
      simp [h]
    · rw [if_neg (fun hcontra => h hcontra.2), ih]
      simp [h]

/-- C7 (amended): the output of `clean_text` is exactly the stripped text
fragments of the allow-listed elements that are strictly longer than 10
characters, joined by newlines; fragments of length at most 10 (not just
shorter than 10) are discarded, and a page with at least one allow-listed
element whose stripped text has 11 or more characters yields nonempty
output. -/
theorem clean_text_spec (doc : NodeList) :
    clean_text doc = pyJoin "\n"
      (((findAllList meaningfulTags (decomposeList doc)).map getTextNode).filter
        (fun t => t.length > 10)) ∧
    (∀ e ∈ findAllList meaningfulTags (decomposeList doc),
      (getTextNode e).length > 10 → clean_text doc ≠ "") := by
  have hmain : clean_text doc = pyJoin "\n"
      (((findAllList meaningfulTags (decomposeList doc)).map getTextNode).filter
        (fun t => t.length > 10)) := by
    unfold clean_text
    rw [collectTexts_eq]
  refine ⟨hmain, fun e he hlen => ?_⟩
  rw [hmain]
  have hmem : getTextNode e ∈
      ((findAllList meaningfulTags (decomposeList doc)).map getTextNode).filter
        (fun t => t.length > 10) :=
    List.mem_filter.mpr ⟨List.mem_map_of_mem getTextNode he, by simpa using hlen⟩
  apply pyJoin_ne_empty "\n" _ (List.ne_nil_of_mem hmem)
  intro s hs
  have hlen' : s.length > 10 := by simpa using (List.mem_filter.mp hs).2
  intro hcontra
  rw [hcontra] at hlen'
  simp at hlen'

/-- C7 counterexample: a page whose only paragraph text has exactly 10
characters.  The code's filter is `len(text) > 10`, so the fragment is
discarded and the output is empty, while the claim (keep fragments of length
at least 10) would retain it. -/
theorem clean_text_min_length_cex :
    clean_text sampleDoc10 = "" ∧
    clean_text_claimed sampleDoc10 = "aaaaaaaaaa" ∧
    clean_text sampleDoc10 ≠ clean_text_claimed sampleDoc10 :=
  ⟨rfl, rfl, by decide⟩

theorem clean_text_spec_witness : clean_text sampleDoc11 ≠ "" :=
  (clean_text_spec sampleDoc11).2
    (HtmlNode.elem "p" (NodeList.cons (HtmlNode.text "aaaaaaaaaaa") NodeList.nil))
    (by
      rw [show findAllList meaningfulTags (decomposeList sampleDoc11) =
          [HtmlNode.elem "p" (NodeList.cons (HtmlNode.text "aaaaaaaaaaa") NodeList.nil)]
        from rfl]
      exact List.mem_singleton.mpr rfl)
    (by decide)

/-! ## Frontier Crawler lemmas (C2, C5) -/

theorem enqueueLinks_same (netloc : String → String) (start_url : String) :
    ∀ (found : List String) (st : CrawlState),
      (enqueueLinks netloc start_url found st).visited = st.visited ∧
      (enqueueLinks netloc start_url found st).data = st.data ∧
      (enqueueLinks netloc start_url found st).fetchLog = st.fetchLog := by
  intro found
  induction found with
  | nil => intro st; exact ⟨rfl, rfl, rfl⟩
  | cons u rest ih =>
    intro st
    simp only [enqueueLinks]
    split
    · exact ih _
    · exact ih _

theorem enqueueLinks_queue (netloc : String → String) (start_url : String) :
    ∀ (found : List String) (st : CrawlState),
      (∀ u ∈ st.urls_to_visit, netloc u = netloc start_url) →
      ∀ u ∈ (enqueueLinks netloc start_url found st).urls_to_visit,
        netloc u = netloc start_url := by
  intro found
  induction found with
  | nil => intro st h; exact h
  | cons v rest ih =>
    intro st h
    simp only [enqueueLinks]
    split
    · next hcond =>
      refine ih _ ?_
      intro u hu
      rcases List.mem_append.mp hu with hu | hu
      · exact h u hu
      · simp only [List.mem_singleton] at hu
        subst hu
        exact hcond.1
    · exact ih _ h

theorem enqueueLinks_inv (netloc : String → String) (start_url : String)
    (found : List String) (st : CrawlState) (hinv : CrawlInv netloc start_url st) :
    CrawlInv netloc start_url (enqueueLinks netloc start_url found st) := by
  obtain ⟨hv, hd, hf⟩ := enqueueLinks_same netloc start_url found st
  exact ⟨enqueueLinks_queue netloc start_url found st hinv.1,
    hv ▸ hinv.2.1, hd ▸ hinv.2.2.1, hf ▸ hinv.2.2.2⟩

theorem dictSet_mem {k v : String} {d : List (String × String)} :
    ∀ p ∈ dictSet k v d, p = (k, v) ∨ p ∈ d := by
  intro p hp
  unfold dictSet at hp
  split at hp
  · rcases List.mem_map.mp hp with ⟨q, hq, hfq⟩
    by_cases h : q.1 == k
    · rw [if_pos h] at hfq
      exact Or.inl hfq.symm
    · rw [if_neg h] at hfq
      exact Or.inr (hfq ▸ hq)
  · rcases List.mem_append.mp hp with h | h
    · exact Or.inr h
    · simp only [List.mem_singleton] at h
      exact Or.inl h

theorem processResults_inv (links : String → String → List String)
    (netloc : String → String) (start_url : String) :
    ∀ (pairs : List (String × String)) (st : CrawlState),
      (∀ p ∈ pairs, netloc p.1 = netloc start_url) →
      CrawlInv netloc start_url st →
      CrawlInv netloc start_url (processResults links netloc start_url pairs st) := by
  intro pairs
  induction pairs with
  | nil => intro st _ hinv; exact hinv
  | cons p rest ih =>
    intro st hp hinv
    obtain ⟨url, html⟩ := p
    simp only [processResults]
    split
    · exact ih _ (fun q hq => hp q (List.mem_cons_of_mem _ hq)) hinv
    · refine ih _ (fun q hq => hp q (List.mem_cons_of_mem _ hq)) ?_
      apply enqueueLinks_inv
      refine ⟨hinv.1, ?_, ?_, hinv.2.2.2⟩
      · intro u hu
        simp only at hu
        split at hu
        · exact hinv.2.1 u hu
        · rcases List.mem_append.mp hu with hu | hu
          · exact hinv.2.1 u hu
          · simp only [List.mem_singleton] at hu
            subst hu
            exact hp (u, html) (List.mem_cons_self _ _)
      · intro q hq
        simp only at hq
        rcases dictSet_mem q hq with hq' | hq'
        · subst hq'
          exact hp (url, html) (List.mem_cons_self _ _)
        · exact hinv.2.2.1 q hq'

theorem crawlStep_inv (web : String → String) (links : String → String → List String)
    (netloc : String → String) (start_url : String) (st : CrawlState)
    (hinv : CrawlInv netloc start_url st) :
    CrawlInv netloc start_url (crawlStep web links netloc start_url st) := by
  unfold crawlStep
  apply processResults_inv
  · intro p hp
    obtain ⟨u, r⟩ := p
    have hu : u ∈ st.urls_to_visit.take (min 5 st.urls_to_visit.length) :=
      (List.of_mem_zip hp).1
    exact hinv.1 u (List.take_subset _ _ hu)
  · refine ⟨?_, hinv.2.1, hinv.2.2.1, ?_⟩
    · intro u hu
      exact hinv.1 u (List.drop_subset _ _ hu)
    · intro e he
      simp only at he
      rcases List.mem_append.mp he with h | h
      · exact hinv.2.2.2 e h
      · rcases List.mem_map.mp h with ⟨u, hu, rfl⟩
        have hne := List.of_mem_filter hu
        simp only [decide_eq_true_eq] at hne
        intro hmem
        exact hne (by simpa [List.contains, List.elem_iff] using hmem)

theorem crawlLoop_inv (web : String → String) (links : String → String → List String)
    (netloc : String → String) (start_url : String) (max_pages : Option Nat) :
    ∀ (fuel : Nat) (st : CrawlState), CrawlInv netloc start_url st →
      CrawlInv netloc start_url
        (crawlLoop web links netloc start_url max_pages fuel st) := by
  intro fuel
  induction fuel with
  | zero => intro st h; exact h
  | succ fuel ih =>
    intro st h
    simp only [crawlLoop]
    split
    · exact h
    · match max_pages with
      | some n =>
        simp only
        split
        · exact h
        · exact ih _ (crawlStep_inv web links netloc start_url st h)
      | none => exact ih _ (crawlStep_inv web links netloc start_url st h)

/-- C5: the Frontier Crawler never fetches a URL already present in its
visited set (every fetch-log entry pairs a URL with the visited set at
dispatch time, and the URL is never in it), and every key of the returned
mapping — indeed every visited URL — shares the start URL's netloc. -/
theorem crawl_website_async_same_site (web : String → String)
    (links : String → String → List String) (netloc : String → String)
    (start_url : String) (max_pages : Option Nat) (fuel : Nat) :
    (∀ e ∈ (crawl_website_async web links netloc start_url max_pages fuel).fetchLog,
      e.1 ∉ e.2) ∧
    (∀ p ∈ (crawl_website_async web links netloc start_url max_pages fuel).data,
      netloc p.1 = netloc start_url) ∧
    (∀ u ∈ (crawl_website_async web links netloc start_url max_pages fuel).visited,
      netloc u = netloc start_url) := by
  have hinv : CrawlInv netloc start_url
      (crawl_website_async web links netloc start_url max_pages fuel) := by
    apply crawlLoop_inv
    refine ⟨?_, by simp, by simp, by simp⟩
    intro u hu
    simp only [List.mem_singleton] at hu
    subst hu
    rfl
  exact ⟨hinv.2.2.2, hinv.2.2.1, hinv.2.1⟩

theorem crawl_website_async_same_site_witness :
    (("a" : String) ∉ (["s"] : List String)) ∧ netlocEx "s" = netlocEx "s" :=
  ⟨(crawl_website_async_same_site webEx linksEx netlocEx "s" none 10).1
      ("a", ["s"]) (by decide),
   (crawl_website_async_same_site webEx linksEx netlocEx "s" none 10).2.1
      ("s", "hub") (by decide)⟩

theorem processResults_visited_le (links : String → String → List String)
    (netloc : String → String) (start_url : String) :
    ∀ (pairs : List (String × String)) (st : CrawlState),
      (processResults links netloc start_url pairs st).visited.length ≤
        st.visited.length + pairs.length := by
  intro pairs
  induction pairs with
  | nil => intro st; simp [processResults]
  | cons p rest ih =>
    intro st
    obtain ⟨url, html⟩ := p
    simp only [processResults]
    split
    · have := ih st
      simp only [List.length_cons]
      omega
    · have hlen : ((enqueueLinks netloc start_url (links url html)
          { st with
            visited := if st.visited.contains url then st.visited
              else st.visited ++ [url],
            data := dictSet url html st.data }).visited).length ≤
          st.visited.length + 1 := by
        rw [(enqueueLinks_same netloc start_url _ _).1]
        simp only
        split
        · omega
        · simp
      have := ih (enqueueLinks netloc start_url (links url html)
          { st with
            visited := if st.visited.contains url then st.visited
              else st.visited ++ [url],
            data := dictSet url html st.data })
      simp only [List.length_cons]
      omega

theorem crawlStep_visited_le (web : String → String)
    (links : String → String → List String) (netloc : String → String)
    (start_url : String) (st : CrawlState) :
    (crawlStep web links netloc start_url st).visited.length ≤
      st.visited.length + 5 := by
  unfold crawlStep
  have h := processResults_visited_le links netloc start_url
    ((st.urls_to_visit.take (min 5 st.urls_to_visit.length)).zip
      ((st.urls_to_visit.take (min 5 st.urls_to_visit.length)).filter
        (fun u => ¬ st.visited.contains u) |>.map web))
    { st with
      urls_to_visit := st.urls_to_visit.drop (min 5 st.urls_to_visit.length),
      fetchLog := st.fetchLog ++
        ((st.urls_to_visit.take (min 5 st.urls_to_visit.length)).filter
          (fun u => ¬ st.visited.contains u)).map (fun u => (u, st.visited)) }
  have hz : ((st.urls_to_visit.take (min 5 st.urls_to_visit.length)).zip
      ((st.urls_to_visit.take (min 5 st.urls_to_visit.length)).filter
        (fun u => ¬ st.visited.contains u) |>.map web)).length ≤ 5 := by
    rw [List.length_zip]
    have := List.length_take (min 5 st.urls_to_visit.length) st.urls_to_visit
    omega
  exact le_trans h (by simp only at h ⊢; omega)

theorem crawlLoop_visited_le (web : String → String)
    (links : String → String → List String) (netloc : String → String)
    (start_url : String) (n : Nat) :
    ∀ (fuel : Nat) (st : CrawlState), st.visited.length ≤ n + 4 →
      (crawlLoop web links netloc start_url (some n) fuel st).visited.length ≤
        n + 4 := by
  intro fuel
  induction fuel with
  | zero => intro st h; exact h
  | succ fuel ih =>
    intro st h
    simp only [crawlLoop]
    split
    · exact h
    · split
      · exact h
      · next hlt =>
        apply ih
        have hstep := crawlStep_visited_le web links netloc start_url st
        omega

theorem contains_iff_mem {l : List String} {a : String} :
    l.contains a = true ↔ a ∈ l := by
  simp [List.contains, List.elem_iff]

theorem dictSet_keys_nodup {k v : String} {d : List (String × String)}
    (h : (d.map (·.1)).Nodup) : ((dictSet k v d).map (·.1)).Nodup := by
  unfold dictSet
  split
  · rw [List.map_map]
    have heq : d.map ((·.1) ∘ fun p => if p.1 == k then (k, v) else p) =
        d.map (·.1) := by
      apply List.map_congr_left
      intro p _
      by_cases hc : (p.1 == k) = true
      · simp only [Function.comp_apply, if_pos hc]
        exact (eq_of_beq hc).symm
      · simp only [Function.comp_apply, if_neg hc]
    rw [heq]
    exact h
  · next hany =>
    rw [List.map_append]
    refine List.Nodup.append h (List.nodup_singleton _) ?_
    intro a ha hb
    simp only [List.map_cons, List.map_nil, List.mem_singleton] at hb
    rcases List.mem_map.mp ha with ⟨p, hp, hkey⟩
    have hbeq : (p.1 == k) = true := by rw [hkey, hb]; exact beq_self_eq_true _
    exact absurd (List.any_eq_true.mpr ⟨p, hp, hbeq⟩) hany

theorem processResults_datainv (links : String → String → List String)
    (netloc : String → String) (start_url : String) :
    ∀ (pairs : List (String × String)) (st : CrawlState),
      DataInv st → DataInv (processResults links netloc start_url pairs st) := by
  intro pairs
  induction pairs with
  | nil => intro st h; exact h
  | cons p rest ih =>
    intro st h
    obtain ⟨url, html⟩ := p
    simp only [processResults]
    split
    · exact ih st h
    · refine ih _ ?_
      obtain ⟨hv, hd, _⟩ := enqueueLinks_same netloc start_url (links url html) _
      refine ⟨?_, ?_, ?_⟩
      · rw [hv, hd]
        intro x hx
        rcases List.mem_map.mp hx with ⟨q, hq, rfl⟩
        rcases dictSet_mem q hq with rfl | hq'
        · simp only
          split
          · next hcont => exact contains_iff_mem.mp hcont
          · exact List.mem_append.mpr (Or.inr (by simp))
        · have hold := h.1 q.1 (List.mem_map_of_mem (·.1) hq')
          simp only
          split
          · exact hold
          · exact List.mem_append.mpr (Or.inl hold)
      · rw [hd]
        exact dictSet_keys_nodup h.2.1
      · rw [hv]
        simp only
        split
        · exact h.2.2
        · next hcont =>
          refine List.Nodup.append h.2.2 (List.nodup_singleton _) ?_
          intro a ha hb
          simp only [List.mem_singleton] at hb
          subst hb
          exact absurd (contains_iff_mem.mpr ha) (by simpa using hcont)

theorem crawlStep_datainv (web : String → String)
    (links : String → String → List String) (netloc : String → String)
    (start_url : String) (st : CrawlState) (h : DataInv st) :
    DataInv (crawlStep web links netloc start_url st) := by
  unfold crawlStep
  exact processResults_datainv links netloc start_url _ _ h

theorem crawlLoop_datainv (web : String → String)
    (links : String → String → List String) (netloc : String → String)
    (start_url : String) (max_pages : Option Nat) :
    ∀ (fuel : Nat) (st : CrawlState), DataInv st →
      DataInv (crawlLoop web links netloc start_url max_pages fuel st) := by
  intro fuel
  induction fuel with
  | zero => intro st h; exact h
  | succ fuel ih =>
    intro st h
    simp only [crawlLoop]
    split
    · exact h
    · match max_pages with
      | some n =>
        simp only
        split
        · exact h
        · exact ih _ (crawlStep_datainv web links netloc start_url st h)
      | none => exact ih _ (crawlStep_datainv web links netloc start_url st h)

theorem nodup_subset_length {l₁ l₂ : List String} (h : l₁.Nodup)
    (hsub : ∀ a ∈ l₁, a ∈ l₂) : l₁.length ≤ l₂.length := by
  classical
  have h1 := List.toFinset_card_of_nodup h
  have h2 : l₁.toFinset ⊆ l₂.toFinset := by
    intro a ha
    rw [List.mem_toFinset] at ha ⊢
    exact hsub a ha
  have h3 := Finset.card_le_card h2
  have h4 := List.toFinset_card_le (l := l₂)
  omega

/-- C2 (amended): with page cap `n`, the number of visited pages — and with
it the size of the returned URL-to-content mapping — never exceeds `n + 4`:
the cap is checked only between batches, and a single batch can fetch up to
5 pages, so the final batch may overshoot the cap by up to
`batch size - 1` pages. -/
theorem crawl_website_async_page_cap (web : String → String)
    (links : String → String → List String) (netloc : String → String)
    (start_url : String) (n fuel : Nat) :
    (crawl_website_async web links netloc start_url (some n) fuel).visited.length ≤
      n + 4 ∧
    (crawl_website_async web links netloc start_url (some n) fuel).data.length ≤
      n + 4 := by
  have hvis : (crawl_website_async web links netloc start_url
      (some n) fuel).visited.length ≤ n + 4 := by
    apply crawlLoop_visited_le
    simp
  have hdi : DataInv (crawl_website_async web links netloc start_url
      (some n) fuel) := by
    apply crawlLoop_datainv
    exact ⟨by simp, by simp, by simp⟩
  refine ⟨hvis, ?_⟩
  have hlen : (crawl_website_async web links netloc start_url
      (some n) fuel).data.length =
      ((crawl_website_async web links netloc start_url
        (some n) fuel).data.map (·.1)).length := (List.length_map ..).symm
  rw [hlen]
  exact le_trans (nodup_subset_length hdi.2.1 hdi.1) hvis

/-- C2 counterexample: with page cap 2 on a hub page linking to three
same-site pages, the crawler visits 4 pages: the cap is tested only before
a batch is dispatched, and the second batch fetches three pages at once. -/
theorem crawl_website_async_page_cap_cex :
    (crawl_website_async webEx linksEx netlocEx "s" (some 2) 10).visited =
      ["s", "a", "b", "c"] ∧
    (crawl_website_async webEx linksEx netlocEx "s" (some 2) 10).visited.length = 4 := by
  exact ⟨by decide, by decide⟩

/-! ## Rate-Limited Fetcher (C6) -/

/-- C6: `scrape_url_async` returns the response body on a 200 response and
the empty string on every failure — any non-200 status, or a raised
exception (timeout, connection error); the model's totality is the
never-raises contract. -/
theorem scrape_url_async_contract :
    (∀ body : String, scrape_url_async (.response 200 body) = body) ∧
    (∀ (status : Nat) (body : String), status ≠ 200 →
      scrape_url_async (.response status body) = "") ∧
    (∀ msg : String, scrape_url_async (.exn msg) = "") := by
  refine ⟨fun body => rfl, fun status body h => ?_, fun msg => rfl⟩
  simp [scrape_url_async, h]

theorem scrape_url_async_contract_witness :
    scrape_url_async (.response 200 "page body") = "page body" ∧
    scrape_url_async (.response 404 "missing") = "" ∧
    scrape_url_async (.exn "timeout") = "" :=
  ⟨scrape_url_async_contract.1 "page body",
   scrape_url_async_contract.2.1 404 "missing" (by decide),
   scrape_url_async_contract.2.2 "timeout"⟩

/-! ## Progress store lookup lemmas -/

theorem lookup_map_replace (key : String × String) (snap : TaskSnapshot) :
    ∀ l : List ((String × String) × TaskSnapshot),
      l.any (fun e => e.1 == key) = true →
      (l.map (fun e => if e.1 == key then (key, snap) else e)).lookup key =
        some snap := by
  intro l
  induction l with
  | nil => intro h; simp at h
  | cons e rest ih =>
    intro hany
    simp only [List.map_cons]
    by_cases h : (e.1 == key) = true
    · rw [if_pos h]
      simp [List.lookup]
    · rw [if_neg h]
      have hne : e.1 ≠ key := by simpa using h
      have hk : (key == e.1) = false :=
        beq_eq_false_iff_ne.mpr (fun hc => hne hc.symm)
      rw [List.lookup, hk]
      apply ih
      simpa [h] using hany

theorem lookup_map_replace_other (key other : String × String)
    (snap : TaskSnapshot) (hne : other ≠ key) :
    ∀ l : List ((String × String) × TaskSnapshot),
      (l.map (fun e => if e.1 == key then (key, snap) else e)).lookup other =
        l.lookup other := by
  intro l
  induction l with
  | nil => rfl
  | cons e rest ih =>
    simp only [List.map_cons]
    by_cases h : (e.1 == key) = true
    · rw [if_pos h]
      have he : e.1 = key := by simpa using h
      have hno : (other == key) = false := beq_eq_false_iff_ne.mpr hne
      rw [List.lookup, List.lookup, hno, he, hno]
      exact ih
    · rw [if_neg h]
      rw [List.lookup, List.lookup]
      cases hcase : (other == e.1) with
      | true => rfl
      | false => exact ih

theorem lookup_append_single (key : String × String) (snap : TaskSnapshot) :
    ∀ l : List ((String × String) × TaskSnapshot),
      l.any (fun e => e.1 == key) = false →
      (l ++ [(key, snap)]).lookup key = some snap := by
  intro l
  induction l with
  | nil => simp [List.lookup]
  | cons e rest ih =>
    intro hany
    simp only [List.any_cons, Bool.or_eq_false_iff] at hany
    have hk : (key == e.1) = false := by
      rw [beq_eq_false_iff_ne] at hany ⊢
      exact fun hc => hany.1 hc.symm
    rw [List.cons_append, List.lookup, hk]
    exact ih hany.2

theorem lookup_append_single_other (key other : String × String)
    (snap : TaskSnapshot) (hne : other ≠ key) :
    ∀ l : List ((String × String) × TaskSnapshot),
      (l ++ [(key, snap)]).lookup other = l.lookup other := by
  intro l
  induction l with
  | nil =>
    simp [List.lookup, beq_eq_false_iff_ne.mpr hne]
  | cons e rest ih =>
    rw [List.cons_append, List.lookup, List.lookup]
    cases hcase : (other == e.1) with
    | true => rfl
    | false => exact ih

theorem storeSet_lookup_self (user task : String) (snap : TaskSnapshot)
    (l : List ((String × String) × TaskSnapshot)) :
    (storeSet user task snap l).lookup (user, task) = some snap := by
  unfold storeSet
  split
  · next h => exact lookup_map_replace (user, task) snap l h
  · next h => exact lookup_append_single (user, task) snap l (Bool.not_eq_true _ ▸ h)

theorem storeSet_lookup_other (user task : String) (snap : TaskSnapshot)
    (other : String × String) (hne : other ≠ (user, task))
    (l : List ((String × String) × TaskSnapshot)) :
    (storeSet user task snap l).lookup other = l.lookup other := by
  unfold storeSet
  split
  · exact lookup_map_replace_other (user, task) other snap hne l
  · exact lookup_append_single_other (user, task) other snap hne l

/-! ## Progress lookup is user-scoped (C9) -/

/-- C9: `get_scraping_progress` signals 404 exactly when the task id is
absent from the requesting user's own table — in particular a task id that
exists for a different user still yields 404 — and otherwise returns the
task's current snapshot (every field as stored; only `last_update` may have
been refreshed by the read itself). -/
theorem get_scraping_progress_scoped (now : Nat) (user task : String)
    (st : SysState) :
    (st.scraping_progress.lookup (user, task) = none →
      get_scraping_progress now user task st = (Except.error 404, st)) ∧
    (∀ snap, st.scraping_progress.lookup (user, task) = some snap →
      ∃ snap', (get_scraping_progress now user task st).1 = Except.ok snap' ∧
        snap'.status = snap.status ∧ snap'.start_time = snap.start_time ∧
        snap'.pages_scraped = snap.pages_scraped ∧
        snap'.chunks_created = snap.chunks_created ∧ snap'.error = snap.error ∧
        snap'.is_completed = snap.is_completed ∧ snap'.url = snap.url ∧
        snap'.result = snap.result) ∧
    (∀ (user2 : String) (snap : TaskSnapshot), user ≠ user2 →
      st.scraping_progress.lookup (user, task) = none →
      st.scraping_progress.lookup (user2, task) = some snap →
      get_scraping_progress now user task st = (Except.error 404, st)) := by
  refine ⟨?_, ?_, ?_⟩
  · intro h
    simp only [get_scraping_progress, h]
  · intro snap h
    simp only [get_scraping_progress, h]
    split
    · exact ⟨snap, rfl, rfl, rfl, rfl, rfl, rfl, rfl, rfl, rfl⟩
    · split
      · exact ⟨snap, rfl, rfl, rfl, rfl, rfl, rfl, rfl, rfl, rfl⟩
      · exact ⟨{ snap with last_update := now },
          rfl, rfl, rfl, rfl, rfl, rfl, rfl, rfl, rfl⟩
  · intro user2 snap _ h _
    simp only [get_scraping_progress, h]

theorem get_scraping_progress_scoped_witness :
    get_scraping_progress 5 "alice" "t1"
      { scraping_progress := [(("bob", "t1"), initialSnapshot 0 "http://x")],
        active_tasks := fun _ => ["t1"] } =
      (Except.error 404,
       { scraping_progress := [(("bob", "t1"), initialSnapshot 0 "http://x")],
         active_tasks := fun _ => ["t1"] }) :=
  (get_scraping_progress_scoped 5 "alice" "t1" _).2.2 "bob"
    (initialSnapshot 0 "http://x") (by decide) (by decide) (by decide)

/-! ## Polling refreshes only `last_update` (C10) -/

/-- C10: a poll of a terminal task (is_completed, or error set), or one
within 2 seconds of `last_update`, returns the snapshot and changes
nothing; a poll of a running task at least 2 seconds after `last_update`
overwrites exactly `last_update` with the current time (the returned and
stored snapshot is `snap` with only `last_update` replaced) and leaves
every other stored task untouched. -/
theorem get_scraping_progress_poll (now : Nat) (user task : String)
    (st : SysState) (snap : TaskSnapshot)
    (hlookup : st.scraping_progress.lookup (user, task) = some snap) :
    ((snap.is_completed = true ∨ snap.error ≠ "") →
      get_scraping_progress now user task st = (Except.ok snap, st)) ∧
    (snap.is_completed = false → snap.error = "" → now - snap.last_update < 2 →
      get_scraping_progress now user task st = (Except.ok snap, st)) ∧
    (snap.is_completed = false → snap.error = "" → 2 ≤ now - snap.last_update →
      (get_scraping_progress now user task st).1 =
        Except.ok ({ snap with last_update := now }) ∧
      ((get_scraping_progress now user task st).2).active_tasks =
        st.active_tasks ∧
      ((get_scraping_progress now user task st).2).scraping_progress.lookup
        (user, task) = some ({ snap with last_update := now }) ∧
      (∀ key : String × String, key ≠ (user, task) →
        ((get_scraping_progress now user task st).2).scraping_progress.lookup
          key = st.scraping_progress.lookup key)) := by
  refine ⟨?_, ?_, ?_⟩
  · intro h
    simp only [get_scraping_progress, hlookup]
    rw [if_pos ?_]
    rcases h with h | h
    · exact Or.inl (by simp [h])
    · exact Or.inr h
  · intro h1 h2 h3
    simp only [get_scraping_progress, hlookup]
    rw [if_neg (by simp [h1, h2]), if_pos h3]
  · intro h1 h2 h3
    have hres : get_scraping_progress now user task st =
        (Except.ok { snap with last_update := now },
         { st with scraping_progress :=
             (storeSet user task ({ snap with last_update := now })
               st.scraping_progress) }) := by
      simp only [get_scraping_progress, hlookup]
      rw [if_neg (by simp [h1, h2]), if_neg (by omega)]
    rw [hres]
    refine ⟨rfl, rfl, ?_, ?_⟩
    · exact storeSet_lookup_self user task _ st.scraping_progress
    · intro key hkey
      exact storeSet_lookup_other user task _ key hkey st.scraping_progress

theorem get_scraping_progress_poll_witness :
    (get_scraping_progress 5 "u" "t"
      { scraping_progress := [(("u", "t"), initialSnapshot 0 "http://x")],
        active_tasks := fun _ => ["t"] }).1 =
      Except.ok ({ initialSnapshot 0 "http://x" with last_update := 5 }) :=
  ((get_scraping_progress_poll 5 "u" "t" _ (initialSnapshot 0 "http://x")
      (by decide)).2.2 (by decide) (by decide) (by decide)).1

/-! ## Per-user admission cap (C3) -/

theorem storeSet_mem {user task : String} {snap : TaskSnapshot}
    {l : List ((String × String) × TaskSnapshot)} :
    ∀ e ∈ storeSet user task snap l, e = ((user, task), snap) ∨ e ∈ l := by
  intro e he
  unfold storeSet at he
  split at he
  · rcases List.mem_map.mp he with ⟨q, hq, hfq⟩
    by_cases h : (q.1 == (user, task)) = true
    · rw [if_pos h] at hfq
      exact Or.inl hfq.symm
    · rw [if_neg h] at hfq
      exact Or.inr (hfq ▸ hq)
  · rcases List.mem_append.mp he with h | h
    · exact Or.inr h
    · simp only [List.mem_singleton] at h
      exact Or.inl h

theorem storeSet_keys_nodup {user task : String} {snap : TaskSnapshot}
    {l : List ((String × String) × TaskSnapshot)}
    (h : (l.map (·.1)).Nodup) :
    ((storeSet user task snap l).map (·.1)).Nodup := by
  unfold storeSet
  split
  · next hany =>
    rw [List.map_map]
    have heq : l.map
        ((·.1) ∘ fun e => if e.1 == (user, task) then ((user, task), snap) else e) =
        l.map (·.1) := by
      apply List.map_congr_left
      intro e _
      by_cases hc : (e.1 == (user, task)) = true
      · simp only [Function.comp_apply, if_pos hc]
        exact (eq_of_beq hc).symm
      · simp only [Function.comp_apply, if_neg hc]
    rw [heq]
    exact h
  · next hany =>
    rw [List.map_append]
    refine List.Nodup.append h (List.nodup_singleton _) ?_
    intro a ha hb
    simp only [List.map_cons, List.map_nil, List.mem_singleton] at hb
    subst hb
    rcases List.mem_map.mp ha with ⟨e, he, hkey⟩
    have : (e.1 == (user, task)) = true := by rw [hkey]; exact beq_self_eq_true _
    have hall : l.any (fun e => e.1 == (user, task)) = true :=
      List.any_eq_true.mpr ⟨e, he, this⟩
    exact absurd hall (by simpa using hany)

theorem lookup_mem {k : String × String} {v : TaskSnapshot} :
    ∀ {l : List ((String × String) × TaskSnapshot)},
      l.lookup k = some v → (k, v) ∈ l := by
  intro l
  induction l with
  | nil => intro h; simp [List.lookup] at h
  | cons e rest ih =>
    intro h
    obtain ⟨k', v'⟩ := e
    cases hk : (k == k') with
    | true =>
      simp only [List.lookup, hk] at h
      have hkeq : k = k' := eq_of_beq hk
      have hv : v' = v := by simpa using h
      subst hkeq
      subst hv
      exact List.mem_cons_self _ _
    | false =>
      simp only [List.lookup, hk] at h
      exact List.mem_cons_of_mem _ (ih h)

theorem mem_lookup_of_nodup {k : String × String} {v : TaskSnapshot} :
    ∀ {l : List ((String × String) × TaskSnapshot)},
      (l.map (·.1)).Nodup → (k, v) ∈ l → l.lookup k = some v := by
  intro l
  induction l with
  | nil => intro _ hmem; simp at hmem
  | cons q rest ih =>
    intro hnodup hmem
    obtain ⟨k', v'⟩ := q
    rw [List.map_cons, List.nodup_cons] at hnodup
    rcases List.mem_cons.mp hmem with hq | hq
    · obtain ⟨hk, hv⟩ := Prod.mk.injEq .. ▸ hq
      subst hk
      subst hv
      simp [List.lookup]
    · have hkne : (k == k') = false := by
        apply beq_eq_false_iff_ne.mpr
        intro hc
        subst hc
        exact hnodup.1 (List.mem_map_of_mem (·.1) hq)
      simp only [List.lookup, hkne]
      exact ih hnodup.2 hq

theorem sysInv_step (st : SysState) (e : Event) (hinv : SysInv st)
    (hleg : legalEvent st e = true) : SysInv (stepEvent st e) := by
  obtain ⟨hcap, hnodup, hact⟩ := hinv
  cases e with
  | create now user task url =>
    simp only [stepEvent, scrape_and_ingest]
    split
    · exact ⟨hcap, hnodup, hact⟩
    · next hlen =>
      refine ⟨?_, storeSet_keys_nodup hnodup, ?_⟩
      · intro u
        simp only
        by_cases hu : u = user
        · rw [if_pos hu]
          split
          · exact hcap user
          · rw [List.length_append, List.length_singleton]
            have := hcap user
            omega
        · rw [if_neg hu]
          exact hcap u
      · intro e he hterm
        rcases storeSet_mem e he with rfl | he'
        · simp only
          rw [if_pos (by trivial)]
          split
          · next hcont => exact hcont
          · exact contains_iff_mem.mpr (List.mem_append.mpr (Or.inr (by simp)))
        · have hold := hact e he' hterm
          simp only
          by_cases hu : e.1.1 = user
          · rw [if_pos hu]
            rw [hu] at hold
            split
            · exact hold
            · exact contains_iff_mem.mpr
                (List.mem_append.mpr (Or.inl (contains_iff_mem.mp hold)))
          · rw [if_neg hu]
            exact hold
  | update now user task u =>
    cases hl : st.scraping_progress.lookup (user, task) with
    | none =>
      simp only [stepEvent, update_progress, hl]
      exact ⟨hcap, hnodup, hact⟩
    | some snap =>
      simp only [stepEvent, update_progress, hl]
      refine ⟨hcap, storeSet_keys_nodup hnodup, ?_⟩
      intro e he hterm
      rcases storeSet_mem e he with rfl | he'
      · simpa [legalEvent] using hleg
      · exact hact e he' hterm
  | finish user task =>
    simp only [stepEvent, discardTask]
    refine ⟨?_, hnodup, ?_⟩
    · intro u
      simp only
      by_cases hu : u = user
      · rw [if_pos hu]
        exact le_trans (List.length_filter_le _ _) (hcap user)
      · rw [if_neg hu]
        exact hcap u
    · intro e he hterm
      have hold := hact e he hterm
      simp only
      by_cases hu : e.1.1 = user
      · rw [if_pos hu]
        have htne : e.1.2 ≠ task := by
          intro hte
          have hkey : e.1 = (user, task) := by
            obtain ⟨⟨u1, t1⟩, snap1⟩ := e
            simp only at hu hte
            simp [hu, hte]
          have hmem : ((user, task), e.2) ∈ st.scraping_progress := by
            rw [← hkey]
            exact he
          have hlk : st.scraping_progress.lookup (user, task) = some e.2 :=
            mem_lookup_of_nodup hnodup hmem
          have hlegal : e.2.is_completed = true := by
            simpa [legalEvent, hlk] using hleg
          rw [hlegal] at hterm
          exact absurd hterm (by simp)
        rw [hu] at hold
        refine contains_iff_mem.mpr ?_
        refine List.mem_filter.mpr ⟨contains_iff_mem.mp hold, ?_⟩
        simp [htne]
      · rw [if_neg hu]
        exact hold
  | poll now user task =>
    cases hl : st.scraping_progress.lookup (user, task) with
    | none =>
      simp only [stepEvent, get_scraping_progress, hl]
      exact ⟨hcap, hnodup, hact⟩
    | some snap =>
      simp only [stepEvent, get_scraping_progress, hl]
      split
      · exact ⟨hcap, hnodup, hact⟩
      · split
        · exact ⟨hcap, hnodup, hact⟩
        · refine ⟨hcap, storeSet_keys_nodup hnodup, ?_⟩
          intro e he hterm
          rcases storeSet_mem e he with rfl | he'
          · exact hact ((user, task), snap) (lookup_mem hl) hterm
          · exact hact e he' hterm

theorem sysInv_init : SysInv initState := by
  refine ⟨fun u => ?_, ?_, ?_⟩
  · simp [initState, MAX_CONCURRENT_TASKS]
  · simp [initState]
  · intro e he
    simp [initState] at he

theorem sysInv_exec :
    ∀ (events : List Event) (st : SysState), SysInv st →
      legalEvents st events = true → SysInv (execEvents st events) := by
  intro events
  induction events with
  | nil => intro st h _; exact h
  | cons e rest ih =>
    intro st h hleg
    rw [legalEvents, Bool.and_eq_true] at hleg
    exact ih _ (sysInv_step st e h hleg.1) hleg.2

theorem nonTerminalCount_le (st : SysState) (hinv : SysInv st) (user : String) :
    nonTerminalCount st user ≤ MAX_CONCURRENT_TASKS := by
  obtain ⟨hcap, hnodup, hact⟩ := hinv
  classical
  set F := st.scraping_progress.filter
    (fun e => e.1.1 == user && !e.2.is_completed) with hF
  have hsub : List.Sublist F st.scraping_progress := by
    rw [hF]; exact List.filter_sublist _
  have hkeys : (F.map (·.1)).Nodup := hnodup.sublist (hsub.map _)
  have hfst : ∀ x ∈ F.map (·.1), x.1 = user := by
    intro x hx
    rcases List.mem_map.mp hx with ⟨e, heF, rfl⟩
    have hcond := List.of_mem_filter (hF ▸ heF)
    rw [Bool.and_eq_true] at hcond
    simpa using hcond.1
  have htasks : (F.map (fun e => e.1.2)).Nodup := by
    have heq : F.map (fun e => e.1.2) = (F.map (·.1)).map Prod.snd := by
      rw [List.map_map]
      rfl
    rw [heq]
    refine hkeys.map_on ?_
    intro x hx y hy hxy
    have hx1 := hfst x hx
    have hy1 := hfst y hy
    obtain ⟨x1, x2⟩ := x
    obtain ⟨y1, y2⟩ := y
    simp only at hx1 hy1 hxy
    simp [hx1, hy1, hxy]
  have hsubset : ∀ t ∈ F.map (fun e => e.1.2), t ∈ st.active_tasks user := by
    intro t ht
    rcases List.mem_map.mp ht with ⟨e, heF, rfl⟩
    have hmem := List.mem_of_mem_filter (hF ▸ heF)
    have hcond := List.of_mem_filter (hF ▸ heF)
    rw [Bool.and_eq_true] at hcond
    have huser : e.1.1 = user := by simpa using hcond.1
    have hterm : e.2.is_completed = false := by simpa using hcond.2
    have := hact e hmem hterm
    rw [huser] at this
    exact contains_iff_mem.mp this
  have hcount : (F.map (fun e => e.1.2)).length ≤ (st.active_tasks user).length := by
    have h1 : (F.map (fun e => e.1.2)).toFinset.card =
        (F.map (fun e => e.1.2)).length := List.toFinset_card_of_nodup htasks
    have h2 : (F.map (fun e => e.1.2)).toFinset ⊆ (st.active_tasks user).toFinset := by
      intro a ha
      rw [List.mem_toFinset] at ha ⊢
      exact hsubset a ha
    have h3 := Finset.card_le_card h2
    have h4 := List.toFinset_card_le (l := st.active_tasks user)
    omega
  have hlen : nonTerminalCount st user = (F.map (fun e => e.1.2)).length := by
    rw [List.length_map]
    rfl
  rw [hlen]
  exact le_trans hcount (hcap user)

/-- C3: over every sequence of events the routes module can produce
(creations, per-run progress updates, end-of-run discards, polls — see
`legalEvent`), the number of a user's non-terminal tasks never exceeds
`MAX_CONCURRENT_TASKS = 3` (and neither does the active set); and a
creation attempt made when the user's active set is already at the cap
returns HTTP 429 and leaves the entire state — every snapshot and the
active set — unchanged. -/
theorem scrape_and_ingest_admission :
    (∀ events : List Event, legalEvents initState events = true →
      ∀ user : String,
        nonTerminalCount (execEvents initState events) user ≤ MAX_CONCURRENT_TASKS ∧
        ((execEvents initState events).active_tasks user).length ≤
          MAX_CONCURRENT_TASKS) ∧
    (∀ (st : SysState) (now : Nat) (user task url : String),
      MAX_CONCURRENT_TASKS ≤ (st.active_tasks user).length →
      scrape_and_ingest now user task url st = (Except.error 429, st)) := by
  constructor
  · intro events hleg user
    have hinv := sysInv_exec events initState sysInv_init hleg
    exact ⟨nonTerminalCount_le _ hinv user, hinv.1 user⟩
  · intro st now user task url h
    unfold scrape_and_ingest
    rw [if_pos h]

theorem scrape_and_ingest_admission_witness :
    nonTerminalCount
      (execEvents initState
        [Event.create 0 "u" "t1" "http://site.test",
         Event.create 1 "u" "t2" "http://site.test",
         Event.create 2 "u" "t3" "http://site.test",
         Event.create 3 "u" "t4" "http://site.test"]) "u" ≤ MAX_CONCURRENT_TASKS ∧
    scrape_and_ingest 4 "u" "t5" "http://site.test"
      (execEvents initState
        [Event.create 0 "u" "t1" "http://site.test",
         Event.create 1 "u" "t2" "http://site.test",
         Event.create 2 "u" "t3" "http://site.test",
         Event.create 3 "u" "t4" "http://site.test"]) =
      (Except.error 429,
       execEvents initState
        [Event.create 0 "u" "t1" "http://site.test",
         Event.create 1 "u" "t2" "http://site.test",
         Event.create 2 "u" "t3" "http://site.test",
         Event.create 3 "u" "t4" "http://site.test"]) :=
  ⟨(scrape_and_ingest_admission.1 _ (by decide) "u").1,
   scrape_and_ingest_admission.2 _ 4 "u" "t5" "http://site.test" (by decide)⟩

/-! ## Status monotonicity of a run (C4) -/

theorem statusRank_le_five (s : Status) : statusRank s ≤ 5 := by
  cases s <;> simp [statusRank]

theorem applyUpdate_status (now : Nat) (u : ProgressUpdate) (s : TaskSnapshot) :
    (applyUpdate now u s).status = u.status := by
  simp only [applyUpdate]
  split <;> split <;> rfl

theorem applyUpdate_completed_of_terminal (now : Nat) (u : ProgressUpdate)
    (s : TaskSnapshot) (h : u.status = Status.completed ∨ u.status = Status.error) :
    (applyUpdate now u s).is_completed = true := by
  unfold applyUpdate
  rw [if_pos h]

theorem applyUpdate_completed_of_nonterminal (now : Nat) (u : ProgressUpdate)
    (s : TaskSnapshot) (h1 : u.status ≠ Status.completed)
    (h2 : u.status ≠ Status.error) :
    (applyUpdate now u s).is_completed = s.is_completed := by
  unfold applyUpdate
  rw [if_neg (by tauto)]

theorem chain'_rank_const (c : Status) :
    ∀ l : List ProgressUpdate, (∀ u ∈ l, u.status = c) →
      List.Chain' (fun a b => statusRank a.status ≤ statusRank b.status) l := by
  intro l
  induction l with
  | nil => intro _; exact List.chain'_nil
  | cons x rest ih =>
    intro h
    cases rest with
    | nil => exact List.chain'_singleton x
    | cons y t =>
      refine List.chain'_cons.mpr
        ⟨?_, ih (fun u hu => h u (List.mem_cons_of_mem _ hu))⟩
      rw [h x (List.mem_cons_self _ _),
        h y (List.mem_cons_of_mem _ (List.mem_cons_self _ _))]

theorem chain'_rank_append {l₁ l₂ : List ProgressUpdate} (r : Nat)
    (h₁ : List.Chain' (fun a b => statusRank a.status ≤ statusRank b.status) l₁)
    (h₂ : List.Chain' (fun a b => statusRank a.status ≤ statusRank b.status) l₂)
    (hb₁ : ∀ u ∈ l₁, statusRank u.status ≤ r)
    (hb₂ : ∀ u ∈ l₂, r ≤ statusRank u.status) :
    List.Chain' (fun a b => statusRank a.status ≤ statusRank b.status) (l₁ ++ l₂) := by
  refine h₁.append h₂ ?_
  intro x hx y hy
  exact le_trans (hb₁ x (List.mem_of_mem_getLast? hx))
    (hb₂ y (List.mem_of_mem_head? hy))

theorem take_append_le {α : Type} (k : Nat) :
    ∀ (l₁ l₂ : List α), k ≤ l₁.length → (l₁ ++ l₂).take k = l₁.take k := by
  induction k with
  | zero => intro l₁ l₂ _; simp
  | succ k ih =>
    intro l₁ l₂ h
    cases l₁ with
    | nil => simp at h
    | cons a t =>
      simp only [List.cons_append, List.take_succ_cons]
      rw [ih t l₂ (by simpa using h)]

theorem nt_of_decomp {l : List ProgressUpdate} {front : List ProgressUpdate}
    {lastu : ProgressUpdate} (heq : l = front ++ [lastu])
    (hfr : ∀ u ∈ front, u.status ≠ Status.completed ∧ u.status ≠ Status.error) :
    NTBeforeLast l := by
  intro pre u suf hdec hsuf
  apply hfr
  have hcombined : (pre ++ u :: suf.dropLast) ++ [suf.getLast hsuf] =
      front ++ [lastu] := by
    have h1 : (pre ++ u :: suf.dropLast) ++ [suf.getLast hsuf] =
        pre ++ u :: (suf.dropLast ++ [suf.getLast hsuf]) := by
      simp [List.append_assoc]
    rw [h1, List.dropLast_append_getLast hsuf, ← hdec, heq]
  have hfronteq := (List.append_inj' hcombined rfl).1
  rw [← hfronteq]
  exact List.mem_append.mpr (Or.inr (List.mem_cons_self _ _))

theorem nt_take {l : List ProgressUpdate} (h : NTBeforeLast l) (k : Nat) :
    NTBeforeLast (l.take k) := by
  intro pre u suf hdec hsuf
  refine h pre u (suf ++ l.drop k) ?_ (by simp [hsuf])
  conv_lhs => rw [← List.take_append_drop k l]
  rw [hdec]
  simp [List.append_assoc]

theorem applyUpdates_sync :
    ∀ (tus : List (Nat × ProgressUpdate)) (s : TaskSnapshot),
      s.is_completed = false →
      s.status ≠ Status.completed → s.status ≠ Status.error →
      NTBeforeLast (tus.map Prod.snd) →
      ((applyUpdates s tus).is_completed = true ↔
        (applyUpdates s tus).status = Status.completed ∨
        (applyUpdates s tus).status = Status.error) := by
  intro tus
  induction tus with
  | nil =>
    intro s h1 h2 h3 _
    simp only [applyUpdates, List.foldl_nil]
    rw [h1]
    simp [h2, h3]
  | cons tu rest ih =>
    intro s h1 h2 h3 hnt
    have hstep : applyUpdates s (tu :: rest) =
        applyUpdates (applyUpdate tu.1 tu.2 s) rest := rfl
    rw [hstep]
    cases rest with
    | nil =>
      simp only [applyUpdates, List.foldl_nil]
      by_cases hterm : tu.2.status = Status.completed ∨ tu.2.status = Status.error
      · rw [applyUpdate_completed_of_terminal _ _ _ hterm, applyUpdate_status]
        simp [hterm]
      · push_neg at hterm
        rw [applyUpdate_completed_of_nonterminal _ _ _ hterm.1 hterm.2,
          applyUpdate_status, h1]
        simp [hterm.1, hterm.2]
    | cons tu2 rest2 =>
      have hnthead : tu.2.status ≠ Status.completed ∧ tu.2.status ≠ Status.error := by
        refine hnt [] tu.2 ((tu2 :: rest2).map Prod.snd) (by simp) (by simp)
      refine ih (applyUpdate tu.1 tu.2 s) ?_ ?_ ?_ ?_
      · rw [applyUpdate_completed_of_nonterminal _ _ _ hnthead.1 hnthead.2]
        exact h1
      · rw [applyUpdate_status]; exact hnthead.1
      · rw [applyUpdate_status]; exact hnthead.2
      · intro pre u suf hdec hsuf
        refine hnt (tu.2 :: pre) u suf ?_ hsuf
        rw [List.map_cons, hdec]
        rfl

theorem normalRun_shape (clean : String → String) (collection : String)
    (pages : List (String × String)) :
    List.Chain' (fun a b => statusRank a.status ≤ statusRank b.status)
      (normalRun clean collection pages) ∧
    ∃ front lastu, normalRun clean collection pages = front ++ [lastu] ∧
      (lastu.status = Status.completed ∨ lastu.status = Status.error) ∧
      ∀ u ∈ front, u.status ≠ Status.completed ∧ u.status ≠ Status.error := by
  by_cases h1 : pages.length = 0
  · refine ⟨?_, [{ status := Status.crawling }],
      { status := Status.error,
        error := some "No pages could be scraped from the provided URL" },
      by simp [normalRun, h1], Or.inr rfl, ?_⟩
    · simp only [normalRun, h1, if_pos]
      exact List.chain'_cons.mpr ⟨by simp [statusRank], List.chain'_singleton _⟩
    · intro u hu
      simp only [List.mem_singleton] at hu
      subst hu
      exact ⟨by simp, by simp⟩
  · set procUs : List ProgressUpdate :=
      (cumulSums 0 ((batched 5 pages).map
        (fun b => (b.map (fun p => (pageChunks clean p.2).length)).sum))).map
      (fun cnt => { status := Status.processing, chunks_created := some cnt })
      with hprocUs
    have hproc : ∀ u ∈ procUs, u.status = Status.processing := by
      intro u hu
      rw [hprocUs] at hu
      rcases List.mem_map.mp hu with ⟨cnt, _, rfl⟩
      rfl
    have hchainhead : List.Chain'
        (fun a b => statusRank a.status ≤ statusRank b.status)
        (({ status := Status.crawling, pages_scraped := some pages.length } :
            ProgressUpdate) ::
          ({ status := Status.processing } : ProgressUpdate) :: procUs) := by
      refine List.chain'_cons.mpr ⟨by simp [statusRank], ?_⟩
      refine chain'_rank_const Status.processing _ ?_
      intro u hu
      rcases List.mem_cons.mp hu with rfl | hu
      · rfl
      · exact hproc u hu
    have hboundhead : ∀ u ∈
        (({ status := Status.crawling, pages_scraped := some pages.length } :
            ProgressUpdate) ::
          ({ status := Status.processing } : ProgressUpdate) :: procUs),
        statusRank u.status ≤ 1 := by
      intro u hu
      rcases List.mem_cons.mp hu with rfl | hu
      · simp [statusRank]
      · rcases List.mem_cons.mp hu with rfl | hu
        · simp [statusRank]
        · rw [hproc u hu]
          simp [statusRank]
    by_cases h2 : ((pages.map (fun p => pageChunks clean p.2)).flatten).length = 0
    · have hus : normalRun clean collection pages =
          ({ status := Status.crawling } : ProgressUpdate) ::
          ({ status := Status.crawling, pages_scraped := some pages.length } :
            ProgressUpdate) ::
          ({ status := Status.processing } : ProgressUpdate) ::
          (procUs ++
            [{ status := Status.error,
               error := some "No valid text content found to ingest from the website" }]) := by
        unfold normalRun
        rw [if_neg h1, if_pos h2]
        rfl
      refine ⟨?_, ({ status := Status.crawling } : ProgressUpdate) ::
        ({ status := Status.crawling, pages_scraped := some pages.length } :
          ProgressUpdate) ::
        ({ status := Status.processing } : ProgressUpdate) :: procUs,
        { status := Status.error,
          error := some "No valid text content found to ingest from the website" },
        by rw [hus]; simp, Or.inr rfl, ?_⟩
      · rw [hus]
        refine List.chain'_cons.mpr ⟨by simp [statusRank], ?_⟩
        refine chain'_rank_append 1 hchainhead (List.chain'_singleton _) hboundhead ?_
        intro u hu
        simp only [List.mem_singleton] at hu
        subst hu
        simp [statusRank]
      · intro u hu
        rcases List.mem_cons.mp hu with rfl | hu
        · exact ⟨by simp, by simp⟩
        · rcases List.mem_cons.mp hu with rfl | hu
          · exact ⟨by simp, by simp⟩
          · rcases List.mem_cons.mp hu with rfl | hu
            · exact ⟨by simp, by simp⟩
            · rw [hproc u hu]
              exact ⟨by simp, by simp⟩
    · have hus : normalRun clean collection pages =
          ({ status := Status.crawling } : ProgressUpdate) ::
          ({ status := Status.crawling, pages_scraped := some pages.length } :
            ProgressUpdate) ::
          ({ status := Status.processing } : ProgressUpdate) ::
          (procUs ++
            [{ status := Status.generating_embeddings },
             { status := Status.storing },
             { status := Status.completed,
               result := some (collection, pages.length,
                 ((pages.map (fun p => pageChunks clean p.2)).flatten).length) }]) := by
        unfold normalRun
        rw [if_neg h1, if_neg h2]
        rfl
      refine ⟨?_, ({ status := Status.crawling } : ProgressUpdate) ::
        ({ status := Status.crawling, pages_scraped := some pages.length } :
          ProgressUpdate) ::
        ({ status := Status.processing } : ProgressUpdate) ::
        (procUs ++
          [{ status := Status.generating_embeddings },
           { status := Status.storing }]),
        { status := Status.completed,
          result := some (collection, pages.length,
            ((pages.map (fun p => pageChunks clean p.2)).flatten).length) },
        by rw [hus]; simp, Or.inl rfl, ?_⟩
      · rw [hus]
        refine List.chain'_cons.mpr ⟨by simp [statusRank], ?_⟩
        refine chain'_rank_append 1 hchainhead ?_ hboundhead ?_
        · refine List.chain'_cons.mpr ⟨by simp [statusRank], ?_⟩
          exact List.chain'_cons.mpr ⟨by simp [statusRank], List.chain'_singleton _⟩
        · intro u hu
          rcases List.mem_cons.mp hu with rfl | hu
          · simp [statusRank]
          · rcases List.mem_cons.mp hu with rfl | hu
            · simp [statusRank]
            · simp only [List.mem_singleton] at hu
              subst hu
              simp [statusRank]
      · intro u hu
        rcases List.mem_cons.mp hu with rfl | hu
        · exact ⟨by simp, by simp⟩
        · rcases List.mem_cons.mp hu with rfl | hu
          · exact ⟨by simp, by simp⟩
          · rcases List.mem_cons.mp hu with rfl | hu
            · exact ⟨by simp, by simp⟩
            · rcases List.mem_append.mp hu with hu | hu
              · rw [hproc u hu]
                exact ⟨by simp, by simp⟩
              · rcases List.mem_cons.mp hu with rfl | hu
                · exact ⟨by simp, by simp⟩
                · simp only [List.mem_singleton] at hu
                  subst hu
                  exact ⟨by simp, by simp⟩

/-- C4: over every run of `process_scraping` — every crawl result, every
cleaner behaviour, and an unhandled exception at any point — the sequence of
status values written to the task's snapshot is non-decreasing along
crawling → processing → generating embeddings → storing → completed, a
terminal status (`completed` or `error`, the latter the only direct jump)
appears exactly once, as the final update; and after applying any prefix of
the run's updates (at arbitrary times) to the freshly created snapshot, the
snapshot's `is_completed` flag is true exactly when its status is
`completed` or `error`. -/
theorem process_scraping_monotone (clean : String → String) (collection : String)
    (pages : List (String × String)) (exnAt : Option (Nat × String))
    (now0 : Nat) (url : String) :
    List.Chain' (fun a b => statusRank a.status ≤ statusRank b.status)
      (runUpdates clean collection pages exnAt) ∧
    (∃ front lastu, runUpdates clean collection pages exnAt = front ++ [lastu] ∧
      (lastu.status = Status.completed ∨ lastu.status = Status.error) ∧
      ∀ u ∈ front, u.status ≠ Status.completed ∧ u.status ≠ Status.error) ∧
    (∀ (tus : List (Nat × ProgressUpdate)) (k : Nat),
      tus.map Prod.snd = (runUpdates clean collection pages exnAt).take k →
      ((applyUpdates (initialSnapshot now0 url) tus).is_completed = true ↔
        (applyUpdates (initialSnapshot now0 url) tus).status = Status.completed ∨
        (applyUpdates (initialSnapshot now0 url) tus).status = Status.error)) := by
  obtain ⟨hchainN, frontN, lastN, heqN, htermN, hntN⟩ :=
    normalRun_shape clean collection pages
  have hmain : List.Chain' (fun a b => statusRank a.status ≤ statusRank b.status)
      (runUpdates clean collection pages exnAt) ∧
      ∃ front lastu, runUpdates clean collection pages exnAt = front ++ [lastu] ∧
        (lastu.status = Status.completed ∨ lastu.status = Status.error) ∧
        ∀ u ∈ front, u.status ≠ Status.completed ∧ u.status ≠ Status.error := by
    match exnAt with
    | none => exact ⟨hchainN, frontN, lastN, heqN, htermN, hntN⟩
    | some (k, msg) =>
      simp only [runUpdates]
      split
      · next hk =>
        constructor
        · refine chain'_rank_append 5 (hchainN.take k) (List.chain'_singleton _)
            (fun u _ => statusRank_le_five u.status) ?_
          intro u hu
          simp only [List.mem_singleton] at hu
          subst hu
          simp [statusRank]
        · refine ⟨(normalRun clean collection pages).take k,
            { status := Status.error, error := some msg }, rfl, Or.inr rfl, ?_⟩
          intro u hu
          have hklen : k ≤ frontN.length := by
            rw [heqN, List.length_append, List.length_singleton] at hk
            omega
          rw [heqN, take_append_le k frontN [lastN] hklen] at hu
          exact hntN u (List.take_subset k frontN hu)
      · exact ⟨hchainN, frontN, lastN, heqN, htermN, hntN⟩
  obtain ⟨hchain, front, lastu, heq, hterm, hnt⟩ := hmain
  refine ⟨hchain, ⟨front, lastu, heq, hterm, hnt⟩, ?_⟩
  intro tus k hmap
  refine applyUpdates_sync tus (initialSnapshot now0 url) rfl (by simp [initialSnapshot])
    (by simp [initialSnapshot]) ?_
  rw [hmap]
  exact nt_take (nt_of_decomp heq hnt) k

theorem process_scraping_monotone_witness :
    ((applyUpdates (initialSnapshot 0 "http://site.test")
        [(1, { status := Status.crawling }),
         (2, { status := Status.error, error := some "boom" })]).is_completed = true ↔
      (applyUpdates (initialSnapshot 0 "http://site.test")
        [(1, { status := Status.crawling }),
         (2, { status := Status.error, error := some "boom" })]).status =
          Status.completed ∨
      (applyUpdates (initialSnapshot 0 "http://site.test")
        [(1, { status := Status.crawling }),
         (2, { status := Status.error, error := some "boom" })]).status =
          Status.error) :=
  (process_scraping_monotone (fun _ => "") "c" [("u", "h")] (some (1, "boom"))
      0 "http://site.test").2.2
    [(1, { status := Status.crawling }),
     (2, { status := Status.error, error := some "boom" })] 2 (by decide)

end WebchatApi
